import Mathlib

/-!
Verification of the search algorithms in this repository
(`1-bfs-graph.py` and `3-dijkstra.py`): a breadth-first traversal over an
abstract neighbor graph, Dijkstra's weighted search with a lazy-deletion
priority queue, and backpointer path reconstruction.

Python dicts are modelled as insertion-ordered association lists, the
`heapq` priority queue as a multiset of `(priority, item)` pairs from which
`get` removes a lexicographically minimal pair, and the `while` loops as
fuel-indexed recursions.  A run can end in `done`, run out of fuel (an
artifact of the embedding, not a program behaviour), or hit a `KeyError`
(a dict lookup of an absent key, which in Python raises).
-/

set_option maxHeartbeats 1000000

/-- Result of running an embedded loop: `outOfFuel` when the fuel budget of
the embedding is exhausted, `keyError` when the Python code would raise a
`KeyError`, `done` on normal return. -/
inductive RunRes (α : Type) where
  | outOfFuel
  | keyError
  | done (a : α)
deriving DecidableEq, Repr

/-- Lookup in a Python dict modelled as an association list (`d[k]` /
`k in d`): the value at the first matching key, if any. -/
def dictGet {V α : Type} [DecidableEq V] : List (V × α) → V → Option α
  | [], _ => none
  | (k1, v1) :: rest, k => if k1 = k then some v1 else dictGet rest k

/-- Assignment `d[k] = v` on a Python dict modelled as an association list:
replaces the value in place if the key is present, appends otherwise
(Python dicts preserve insertion order). -/
def dictPut {V α : Type} [DecidableEq V] : List (V × α) → V → α → List (V × α)
  | [], k, v => [(k, v)]
  | (k1, v1) :: rest, k, v =>
      if k1 = k then (k, v) :: rest else (k1, v1) :: dictPut rest k v

/-- The graph contract of `1-bfs-graph.py`: `neighbors` enumerates the
locations one edge away, in a deterministic order. -/
structure GraphB (V : Type) where
  neighbors : V → List V

/-- The weighted graph contract of `3-dijkstra.py`: `neighbors` plus a
`cost` for moving along an edge. -/
structure WGraph (V : Type) where
  neighbors : V → List V
  cost : V → V → ℚ

/-- All edge costs are non-negative: the Dijkstra precondition. -/
def NonnegCosts {V : Type} (g : WGraph V) : Prop :=
  ∀ a b : V, b ∈ g.neighbors a → 0 ≤ g.cost a b

/-- `v` is connected to `start` by a directed path in the graph given by
the neighbor function `nbrs`. -/
inductive Reaches {V : Type} (nbrs : V → List V) (start : V) : V → Prop
  | refl : Reaches nbrs start start
  | tail {u v : V} : Reaches nbrs start u → v ∈ nbrs u → Reaches nbrs start v

/-- A directed walk from `start` to a location, together with its total
edge cost (summed via `g.cost`). -/
inductive Walk {V : Type} (g : WGraph V) (start : V) : V → ℚ → Prop
  | nil : Walk g start start 0
  | snoc {u v : V} {c : ℚ} :
      Walk g start u c → v ∈ g.neighbors u → Walk g start v (c + g.cost u v)

/-! ## Breadth-first search (`1-bfs-graph.py`) -/

/-- State of the BFS loop: the FIFO frontier (head = next to dequeue), the
`reached` dict (keys in insertion order), and `enq`, the instrumentation
trace of every location ever put onto the frontier, in order. -/
structure BfsState (V : Type) where
  frontier : List V
  reached : List V
  enq : List V

/-- Initial BFS state: `frontier.put(start)`, `reached[start] = True`. -/
def bfsInit {V : Type} (start : V) : BfsState V :=
  ⟨[start], [start], [start]⟩

/-- The inner `for next in graph.neighbors(current)` loop of BFS: each
neighbor not yet reached is enqueued and marked reached. -/
def bfsVisit {V : Type} [DecidableEq V] : List V → BfsState V → BfsState V
  | [], s => s
  | next :: rest, s =>
      if next ∈ s.reached then bfsVisit rest s
      else bfsVisit rest
        ⟨s.frontier ++ [next], s.reached ++ [next], s.enq ++ [next]⟩

/-- The `while not frontier.empty()` loop of `breadth_first_search`,
fuel-indexed.  Returns the reached keys and the enqueue trace. -/
def bfsLoop {V : Type} [DecidableEq V] (g : GraphB V) :
    Nat → BfsState V → RunRes (List V × List V)
  | 0, _ => .outOfFuel
  | fuel + 1, s =>
      match s.frontier with
      | [] => .done (s.reached, s.enq)
      | current :: rest =>
          bfsLoop g fuel (bfsVisit (g.neighbors current) ⟨rest, s.reached, s.enq⟩)

/-- `breadth_first_search(graph, start)`, fuel-indexed. -/
def breadth_first_search {V : Type} [DecidableEq V] (g : GraphB V) (start : V)
    (fuel : Nat) : RunRes (List V × List V) :=
  bfsLoop g fuel (bfsInit start)

/-! ## Dijkstra search (`3-dijkstra.py`) -/

/-- `heapq.heappop` on a heap of `(priority, item)` tuples: remove and
return a lexicographically minimal pair (ties in priority are broken by the
item order, exactly as Python tuple comparison does).  The heap contents
are modelled as a list standing for the multiset of enqueued pairs. -/
def popMin {V : Type} [LinearOrder V] :
    List (ℚ × V) → Option ((ℚ × V) × List (ℚ × V))
  | [] => none
  | x :: xs =>
      match popMin xs with
      | none => some (x, [])
      | some (m, rest) =>
          if x.1 < m.1 ∨ (x.1 = m.1 ∧ x.2 ≤ m.2) then some (x, xs)
          else some (m, x :: rest)

/-- State of the Dijkstra loop: the priority-queue contents, the
`came_from` and `cost_so_far` dicts, and `popped`, the instrumentation
trace of dequeued locations in dequeue order. -/
structure DState (V : Type) where
  frontier : List (ℚ × V)
  came_from : List (V × Option V)
  cost_so_far : List (V × ℚ)
  popped : List V
deriving DecidableEq

/-- Initial Dijkstra state: `frontier.put(start, 0)`,
`came_from[start] = None`, `cost_so_far[start] = 0`. -/
def dijkstraInit {V : Type} (start : V) : DState V :=
  ⟨[(0, start)], [(start, none)], [(start, 0)], []⟩

/-- The writes performed when a relaxation succeeds:
`cost_so_far[next] = new_cost`, `frontier.put(next, new_cost)`,
`came_from[next] = current`. -/
def relaxWrite {V : Type} [DecidableEq V] (current next : V) (new_cost : ℚ)
    (s : DState V) : DState V :=
  { s with
    cost_so_far := dictPut s.cost_so_far next new_cost,
    frontier := s.frontier ++ [(new_cost, next)],
    came_from := dictPut s.came_from next (some current) }

/-- One iteration of the `for next in graph.neighbors(current)` body:
compute `new_cost = cost_so_far[current] + graph.cost(current, next)` and
update the tables when `next` is undiscovered or strictly improved.
Returns `none` when `cost_so_far[current]` is absent (Python `KeyError`). -/
def relax {V : Type} [DecidableEq V] (g : WGraph V) (current next : V)
    (s : DState V) : Option (DState V) :=
  match dictGet s.cost_so_far current with
  | none => none
  | some ccur =>
      let new_cost := ccur + g.cost current next
      match dictGet s.cost_so_far next with
      | none => some (relaxWrite current next new_cost s)
      | some cnext =>
          if new_cost < cnext then some (relaxWrite current next new_cost s)
          else some s

/-- The full neighbor loop of one Dijkstra iteration. -/
def expandGo {V : Type} [DecidableEq V] (g : WGraph V) (current : V) :
    List V → DState V → Option (DState V)
  | [], s => some s
  | next :: rest, s =>
      match relax g current next s with
      | none => none
      | some t => expandGo g current rest t

/-- The `while not frontier.empty()` loop of `dijkstra_search`,
fuel-indexed: dequeue a minimal entry, break if it is the goal, otherwise
relax every neighbor.  Returns `came_from`, `cost_so_far` and the dequeue
trace. -/
def dijkstraLoop {V : Type} [LinearOrder V] (g : WGraph V) (goal : V) :
    Nat → DState V → RunRes (List (V × Option V) × List (V × ℚ) × List V)
  | 0, _ => .outOfFuel
  | fuel + 1, s =>
      match popMin s.frontier with
      | none => .done (s.came_from, s.cost_so_far, s.popped)
      | some ((_, current), rest) =>
          if current = goal then
            .done (s.came_from, s.cost_so_far, s.popped ++ [current])
          else
            match expandGo g current (g.neighbors current)
                { s with frontier := rest, popped := s.popped ++ [current] } with
            | none => .keyError
            | some t => dijkstraLoop g goal fuel t

/-- `dijkstra_search(graph, start, goal)`, fuel-indexed: returns the
`came_from` and `cost_so_far` tables. -/
def dijkstra_search {V : Type} [LinearOrder V] (g : WGraph V) (start goal : V)
    (fuel : Nat) : RunRes (List (V × Option V) × List (V × ℚ)) :=
  match dijkstraLoop g goal fuel (dijkstraInit start) with
  | .outOfFuel => .outOfFuel
  | .keyError => .keyError
  | .done (cf, csf, _) => .done (cf, csf)

/-! ## Path reconstruction (`3-dijkstra.py`) -/

/-- The `while current != start` walk of `reconstruct_path`, fuel-indexed.
`current` is an `Option V` because `came_from[start]` holds the `None`
sentinel; when the walk steps onto `None` (or looks up an absent key) the
Python code raises `KeyError` on the next lookup. -/
def reconstructGo {V : Type} [DecidableEq V] (came_from : List (V × Option V))
    (start : V) : Nat → Option V → List V → RunRes (List V)
  | 0, _, _ => .outOfFuel
  | _ + 1, none, _ => .keyError
  | fuel + 1, some current, path =>
      if current = start then .done ((path ++ [current]).reverse)
      else
        match dictGet came_from current with
        | none => .keyError
        | some nxt => reconstructGo came_from start fuel nxt (path ++ [current])

/-- `reconstruct_path(came_from, start, goal)`: empty path when `goal` has
no entry, otherwise walk backpointers from `goal` until `start`, append
`start`, and reverse. -/
def reconstruct_path {V : Type} [DecidableEq V] (came_from : List (V × Option V))
    (start goal : V) (fuel : Nat) : RunRes (List V) :=
  if (dictGet came_from goal).isSome then reconstructGo came_from start fuel (some goal) []
  else .done []

/-- Total edge cost of a location sequence, summing `g.cost` over
consecutive pairs. -/
def listCost {V : Type} (g : WGraph V) : List V → ℚ
  | a :: b :: rest => g.cost a b + listCost g (b :: rest)
  | _ => 0

/-- Total edge cost of a backpointer chain listed goal-first: the cost of
its reversal under `listCost`. -/
def revCost {V : Type} (g : WGraph V) : List V → ℚ
  | a :: b :: rest => g.cost b a + revCost g (b :: rest)
  | _ => 0

/-- Following backpointers in `came_from` from `v` reaches `start` in
finitely many steps. -/
inductive LeadsTo {V : Type} [DecidableEq V] (cf : List (V × Option V))
    (start : V) : V → Prop
  | base : LeadsTo cf start start
  | step {v p : V} : dictGet cf v = some (some p) → LeadsTo cf start p →
      LeadsTo cf start v

/-- `LeadsTo` with an explicit chain length, used for the acyclicity
argument. -/
inductive LeadsToN {V : Type} [DecidableEq V] (cf : List (V × Option V))
    (start : V) : V → Nat → Prop
  | base : LeadsToN cf start start 0
  | step {v p : V} {n : Nat} : dictGet cf v = some (some p) →
      LeadsToN cf start p n → LeadsToN cf start v (n + 1)

/-- The backpointer chain from `c` down to `start`, listed goal-first:
`[c, parent c, ..., start]`. -/
inductive PChain {V : Type} [DecidableEq V] (cf : List (V × Option V))
    (start : V) : V → List V → Prop
  | base : PChain cf start start [start]
  | step {c p : V} {t : List V} : c ≠ start → dictGet cf c = some (some p) →
      PChain cf start p t → PChain cf start c (c :: t)

/-! ## Association-list dictionary lemmas -/

theorem dictGet_dictPut_self {V α : Type} [DecidableEq V] (l : List (V × α))
    (k : V) (v : α) : dictGet (dictPut l k v) k = some v := by
  induction l with
  | nil => simp [dictPut, dictGet]
  | cons hd tl ih =>
      obtain ⟨k1, v1⟩ := hd
      by_cases h : k1 = k
      · simp [dictPut, h, dictGet]
      · simp [dictPut, h, dictGet, ih]

theorem dictGet_dictPut_ne {V α : Type} [DecidableEq V] (l : List (V × α))
    {k k1 : V} (v : α) (h : k1 ≠ k) :
    dictGet (dictPut l k v) k1 = dictGet l k1 := by
  induction l with
  | nil => simp [dictPut, dictGet, Ne.symm h]
  | cons hd tl ih =>
      obtain ⟨k2, v2⟩ := hd
      by_cases h2 : k2 = k
      · subst h2
        simp [dictPut, dictGet, Ne.symm h]
      · simp only [dictPut, h2, if_false, dictGet]
        by_cases h3 : k2 = k1
        · simp [h3]
        · simp [h3, ih]

theorem dictGet_mem_keys {V α : Type} [DecidableEq V] {l : List (V × α)} {k : V} :
    (dictGet l k).isSome ↔ k ∈ l.map Prod.fst := by
  induction l with
  | nil => simp [dictGet]
  | cons hd tl ih =>
      obtain ⟨k1, v1⟩ := hd
      by_cases h : k1 = k
      · simp [dictGet, h]
      · simp [dictGet, h, ih, Ne.symm h]

theorem dictPut_keys_of_mem {V α : Type} [DecidableEq V] {l : List (V × α)}
    {k : V} (v : α) (h : (dictGet l k).isSome) :
    (dictPut l k v).map Prod.fst = l.map Prod.fst := by
  induction l with
  | nil => simp [dictGet] at h
  | cons hd tl ih =>
      obtain ⟨k1, v1⟩ := hd
      by_cases h1 : k1 = k
      · simp [dictPut, h1]
      · simp [dictGet, h1] at h
        simp [dictPut, h1, ih h]

theorem dictPut_keys_of_not_mem {V α : Type} [DecidableEq V] {l : List (V × α)}
    {k : V} (v : α) (h : dictGet l k = none) :
    (dictPut l k v).map Prod.fst = l.map Prod.fst ++ [k] := by
  induction l with
  | nil => simp [dictPut]
  | cons hd tl ih =>
      obtain ⟨k1, v1⟩ := hd
      by_cases h1 : k1 = k
      · simp [dictGet, h1] at h
      · simp [dictGet, h1] at h
        simp [dictPut, h1, ih h]

theorem dictGet_isSome_dictPut {V α : Type} [DecidableEq V] (l : List (V × α))
    {k : V} (k1 : V) (v : α) (h : (dictGet l k1).isSome) :
    (dictGet (dictPut l k v) k1).isSome := by
  by_cases hk : k1 = k
  · subst hk; simp [dictGet_dictPut_self]
  · rw [dictGet_dictPut_ne l v hk]; exact h

/-! ## Priority-queue lemmas -/

theorem popMin_eq_none {V : Type} [LinearOrder V] {l : List (ℚ × V)} :
    popMin l = none ↔ l = [] := by
  cases l with
  | nil => simp [popMin]
  | cons x xs =>
      constructor
      · intro h
        simp only [popMin] at h
        rcases hxs : popMin xs with _ | ⟨m, rest⟩ <;> rw [hxs] at h
        · simp at h
        · by_cases hc : x.1 < m.1 ∨ (x.1 = m.1 ∧ x.2 ≤ m.2) <;> simp [hc] at h
      · intro h; simp at h

theorem popMin_perm {V : Type} [LinearOrder V] {l rest : List (ℚ × V)}
    {m : ℚ × V} (h : popMin l = some (m, rest)) : l.Perm (m :: rest) := by
  induction l generalizing m rest with
  | nil => simp [popMin] at h
  | cons x xs ih =>
      simp only [popMin] at h
      rcases hxs : popMin xs with _ | ⟨m1, rest1⟩ <;> rw [hxs] at h
      · have hnil : xs = [] := popMin_eq_none.mp hxs
        simp only [Option.some.injEq, Prod.mk.injEq] at h
        obtain ⟨rfl, rfl⟩ := h
        subst hnil
        exact List.Perm.refl _
      · by_cases hc : x.1 < m1.1 ∨ (x.1 = m1.1 ∧ x.2 ≤ m1.2)
        · simp only [hc, if_true, Option.some.injEq, Prod.mk.injEq] at h
          obtain ⟨rfl, rfl⟩ := h
          exact List.Perm.refl _
        · simp only [hc, if_false, Option.some.injEq, Prod.mk.injEq] at h
          obtain ⟨rfl, rfl⟩ := h
          exact ((ih hxs).cons x).trans (List.Perm.swap m1 x rest1)

theorem popMin_min {V : Type} [LinearOrder V] {l rest : List (ℚ × V)}
    {m : ℚ × V} (h : popMin l = some (m, rest)) : ∀ y ∈ l, m.1 ≤ y.1 := by
  induction l generalizing m rest with
  | nil => simp [popMin] at h
  | cons x xs ih =>
      simp only [popMin] at h
      rcases hxs : popMin xs with _ | ⟨m1, rest1⟩ <;> rw [hxs] at h
      · have hnil : xs = [] := popMin_eq_none.mp hxs
        simp only [Option.some.injEq, Prod.mk.injEq] at h
        obtain ⟨rfl, rfl⟩ := h
        subst hnil
        simp
      · by_cases hc : x.1 < m1.1 ∨ (x.1 = m1.1 ∧ x.2 ≤ m1.2)
        · simp only [hc, if_true, Option.some.injEq, Prod.mk.injEq] at h
          obtain ⟨rfl, rfl⟩ := h
          intro y hy
          rcases List.mem_cons.mp hy with rfl | hy
          · exact le_refl _
          · have hm := ih hxs y hy
            rcases hc with hc | hc
            · exact le_trans (le_of_lt hc) hm
            · exact le_trans (le_of_eq hc.1) hm
        · simp only [hc, if_false, Option.some.injEq, Prod.mk.injEq] at h
          obtain ⟨rfl, rfl⟩ := h
          intro y hy
          push_neg at hc
          rcases List.mem_cons.mp hy with rfl | hy
          · exact hc.1
          · exact ih hxs y hy

/-! ## Walk and reachability lemmas -/

theorem Walk.nonneg {V : Type} {g : WGraph V} {start v : V} {c : ℚ}
    (hnn : NonnegCosts g) (h : Walk g start v c) : 0 ≤ c := by
  induction h with
  | nil => exact le_refl 0
  | snoc _ hmem ih => exact add_nonneg ih (hnn _ _ hmem)

theorem reaches_iff_walk {V : Type} {g : WGraph V} {start v : V} :
    Reaches g.neighbors start v ↔ ∃ c, Walk g start v c := by
  constructor
  · intro h
    induction h with
    | refl => exact ⟨0, Walk.nil⟩
    | tail _ hmem ih =>
        obtain ⟨c, hw⟩ := ih
        exact ⟨_, hw.snoc hmem⟩
  · rintro ⟨c, hw⟩
    induction hw with
    | nil => exact Reaches.refl
    | snoc _ hmem ih => exact ih.tail hmem

/-! ## BFS invariants -/

/-- Invariants of the BFS state that hold at every point of the run:
every reached location is genuinely reachable, `start` is reached, the
frontier holds only reached locations, the reached keys are distinct, and
the enqueue trace coincides with the reached keys (both are appended to in
the same guarded branch). -/
structure BfsBase {V : Type} (g : GraphB V) (start : V) (s : BfsState V) : Prop where
  reachedReach : ∀ v ∈ s.reached, Reaches g.neighbors start v
  startMem : start ∈ s.reached
  frontSub : ∀ v ∈ s.frontier, v ∈ s.reached
  nodup : s.reached.Nodup
  enqEq : s.enq = s.reached

/-- Between loop iterations, every reached location is either still on the
frontier or has had all of its neighbors reached. -/
def BfsClosed {V : Type} (g : GraphB V) (s : BfsState V) : Prop :=
  ∀ v ∈ s.reached, v ∈ s.frontier ∨ ∀ y ∈ g.neighbors v, y ∈ s.reached

theorem bfsVisit_spec {V : Type} [DecidableEq V] {g : GraphB V} {start current : V}
    (hcur : Reaches g.neighbors start current) :
    ∀ (pending : List V) (s : BfsState V),
      (∀ y ∈ pending, y ∈ g.neighbors current) →
      BfsBase g start s →
      (∀ v ∈ s.reached, v ∈ s.frontier ∨ v = current ∨
        ∀ y ∈ g.neighbors v, y ∈ s.reached) →
      BfsBase g start (bfsVisit pending s) ∧
      (∀ v ∈ (bfsVisit pending s).reached,
          v ∈ (bfsVisit pending s).frontier ∨ v = current ∨
          ∀ y ∈ g.neighbors v, y ∈ (bfsVisit pending s).reached) ∧
      (∀ v ∈ s.reached, v ∈ (bfsVisit pending s).reached) ∧
      (∀ y ∈ pending, y ∈ (bfsVisit pending s).reached) := by
  intro pending
  induction pending with
  | nil =>
      intro s _ hbase hmid
      refine ⟨hbase, hmid, ?_, ?_⟩ <;> simp [bfsVisit]
  | cons next rest ih =>
      intro s hpend hbase hmid
      by_cases hmem : next ∈ s.reached
      · have hrec := ih s (fun y hy => hpend y (List.mem_cons_of_mem _ hy)) hbase hmid
        simp only [bfsVisit, if_pos hmem]
        exact ⟨hrec.1, hrec.2.1, hrec.2.2.1, fun y hy => by
          rcases List.mem_cons.mp hy with rfl | hy
          · exact hrec.2.2.1 y hmem
          · exact hrec.2.2.2 y hy⟩
      · have hnext : next ∈ g.neighbors current := hpend next (List.mem_cons_self _ _)
        set s1 : BfsState V :=
          ⟨s.frontier ++ [next], s.reached ++ [next], s.enq ++ [next]⟩ with hs1
        have hbase1 : BfsBase g start s1 := by
          refine ⟨?_, ?_, ?_, ?_, ?_⟩
          · intro v hv
            rcases List.mem_append.mp hv with hv | hv
            · exact hbase.reachedReach v hv
            · rcases List.mem_singleton.mp hv with rfl
              exact hcur.tail hnext
          · exact List.mem_append.mpr (Or.inl hbase.startMem)
          · intro v hv
            rcases List.mem_append.mp hv with hv | hv
            · exact List.mem_append.mpr (Or.inl (hbase.frontSub v hv))
            · exact List.mem_append.mpr (Or.inr hv)
          · exact List.nodup_append.mpr
              ⟨hbase.nodup, List.nodup_singleton next, by
                intro a ha hb
                rcases List.mem_singleton.mp hb with rfl
                exact hmem ha⟩
          · simp [hs1, hbase.enqEq]
        have hmid1 : ∀ v ∈ s1.reached, v ∈ s1.frontier ∨ v = current ∨
            ∀ y ∈ g.neighbors v, y ∈ s1.reached := by
          intro v hv
          rcases List.mem_append.mp hv with hv | hv
          · rcases hmid v hv with hv2 | hv2 | hv2
            · exact Or.inl (List.mem_append.mpr (Or.inl hv2))
            · exact Or.inr (Or.inl hv2)
            · exact Or.inr (Or.inr (fun y hy =>
                List.mem_append.mpr (Or.inl (hv2 y hy))))
          · rcases List.mem_singleton.mp hv with rfl
            exact Or.inl (List.mem_append.mpr (Or.inr (List.mem_singleton.mpr rfl)))
        have hrec := ih s1 (fun y hy => hpend y (List.mem_cons_of_mem _ hy)) hbase1 hmid1
        have hstep : bfsVisit (next :: rest) s = bfsVisit rest s1 := by
          simp [bfsVisit, hmem, hs1]
        rw [hstep]
        refine ⟨hrec.1, hrec.2.1, ?_, ?_⟩
        · intro v hv
          exact hrec.2.2.1 v (List.mem_append.mpr (Or.inl hv))
        · intro y hy
          rcases List.mem_cons.mp hy with rfl | hy
          · exact hrec.2.2.1 y (List.mem_append.mpr (Or.inr (List.mem_singleton.mpr rfl)))
          · exact hrec.2.2.2 y hy

theorem bfsLoop_spec {V : Type} [DecidableEq V] {g : GraphB V} {start : V} :
    ∀ (fuel : Nat) (s : BfsState V) (reached enq : List V),
      BfsBase g start s → BfsClosed g s →
      bfsLoop g fuel s = .done (reached, enq) →
      (∀ v, v ∈ reached ↔ Reaches g.neighbors start v) ∧
      enq = reached ∧ reached.Nodup := by
  intro fuel
  induction fuel with
  | zero => intro s reached enq _ _ h; simp [bfsLoop] at h
  | succ n ih =>
      intro s reached enq hbase hclosed hrun
      rcases hfr : s.frontier with _ | ⟨current, rest⟩
      · rw [bfsLoop, hfr] at hrun
        simp only [RunRes.done.injEq, Prod.mk.injEq] at hrun
        obtain ⟨rfl, rfl⟩ := hrun
        have hclosed2 : ∀ v ∈ s.reached, ∀ y ∈ g.neighbors v, y ∈ s.reached := by
          intro v hv
          rcases hclosed v hv with hv2 | hv2
          · rw [hfr] at hv2; simp at hv2
          · exact hv2
        refine ⟨?_, hbase.enqEq, hbase.nodup⟩
        intro v
        constructor
        · exact hbase.reachedReach v
        · intro hr
          induction hr with
          | refl => exact hbase.startMem
          | tail _ hmem ihr => exact hclosed2 _ ihr _ hmem
      · rw [bfsLoop, hfr] at hrun
        have hcurR : current ∈ s.reached :=
          hbase.frontSub current (by rw [hfr]; exact List.mem_cons_self _ _)
        have hcur : Reaches g.neighbors start current := hbase.reachedReach _ hcurR
        set s0 : BfsState V := ⟨rest, s.reached, s.enq⟩ with hs0
        have hbase0 : BfsBase g start s0 := by
          refine ⟨hbase.reachedReach, hbase.startMem, ?_, hbase.nodup, hbase.enqEq⟩
          intro v hv
          exact hbase.frontSub v (by rw [hfr]; exact List.mem_cons_of_mem _ hv)
        have hmid0 : ∀ v ∈ s0.reached, v ∈ s0.frontier ∨ v = current ∨
            ∀ y ∈ g.neighbors v, y ∈ s0.reached := by
          intro v hv
          rcases hclosed v hv with hv2 | hv2
          · rw [hfr] at hv2
            rcases List.mem_cons.mp hv2 with rfl | hv2
            · exact Or.inr (Or.inl rfl)
            · exact Or.inl hv2
          · exact Or.inr (Or.inr hv2)
        have hvisit := bfsVisit_spec hcur (g.neighbors current) s0
          (fun y hy => hy) hbase0 hmid0
        have hclosed1 : BfsClosed g (bfsVisit (g.neighbors current) s0) := by
          intro v hv
          rcases hvisit.2.1 v hv with hv2 | hv2 | hv2
          · exact Or.inl hv2
          · subst hv2
            exact Or.inr (fun y hy => hvisit.2.2.2 y hy)
          · exact Or.inr hv2
        exact ih _ reached enq hvisit.1 hclosed1 hrun

theorem bfsInit_base {V : Type} [DecidableEq V] (g : GraphB V) (start : V) :
    BfsBase g start (bfsInit start) := by
  refine ⟨?_, ?_, ?_, ?_, ?_⟩ <;> simp [bfsInit]
  exact Reaches.refl

theorem bfsInit_closed {V : Type} (g : GraphB V) (start : V) :
    BfsClosed g (bfsInit start) := by
  intro v hv
  simp only [bfsInit] at hv ⊢
  exact Or.inl hv

/-- Claim C2: for every graph and every start location, whenever
`breadth_first_search(graph, start)` returns, the reached set it computed
contains exactly the locations connected to `start` by a directed path
(`start` itself included). -/
theorem C2_bfs_reached_exact {V : Type} [DecidableEq V] (g : GraphB V) (start : V)
    (fuel : Nat) (reached enq : List V)
    (hrun : breadth_first_search g start fuel = .done (reached, enq)) :
    ∀ v, v ∈ reached ↔ Reaches g.neighbors start v :=
  (bfsLoop_spec fuel (bfsInit start) reached enq (bfsInit_base g start)
    (bfsInit_closed g start) hrun).1

/-- Claim C7: during any run of `breadth_first_search(graph, start)`, each
location is enqueued onto the FIFO frontier at most once: the trace of all
enqueues contains no duplicates. -/
theorem C7_bfs_enqueue_once {V : Type} [DecidableEq V] (g : GraphB V) (start : V)
    (fuel : Nat) (reached enq : List V)
    (hrun : breadth_first_search g start fuel = .done (reached, enq)) :
    enq.Nodup := by
  have h := bfsLoop_spec fuel (bfsInit start) reached enq (bfsInit_base g start)
    (bfsInit_closed g start) hrun
  rw [h.2.1]
  exact h.2.2

/-- The six-node example graph of `1-bfs-graph.py` with locations
A..F renamed 0..5. -/
def exampleGraphB : GraphB ℕ :=
  ⟨fun v =>
    if v = 0 then [1] else if v = 1 then [2] else if v = 2 then [1, 3, 5]
    else if v = 3 then [2, 4] else if v = 4 then [5] else []⟩

/-- Witness for C2: a concrete terminating BFS run on the example graph. -/
theorem C2_witness : (4 : ℕ) ∈ [0, 1, 2, 3, 5, 4] ↔
    Reaches exampleGraphB.neighbors 0 4 :=
  C2_bfs_reached_exact exampleGraphB 0 10 [0, 1, 2, 3, 5, 4] [0, 1, 2, 3, 5, 4] (by decide) 4

/-- Witness for C7: the enqueue trace of a concrete BFS run has no
duplicates. -/
theorem C7_witness : ([0, 1, 2, 3, 5, 4] : List ℕ).Nodup :=
  C7_bfs_enqueue_once exampleGraphB 0 10 [0, 1, 2, 3, 5, 4] [0, 1, 2, 3, 5, 4] (by decide)

/-! ## Characterization of a single relaxation -/

/-- A successful `relax` either leaves the state unchanged (the guard
`next not in cost_so_far or new_cost < cost_so_far[next]` failed) or
performs the three writes of `relaxWrite`, and in the latter case the new
cost strictly beats any previously recorded cost for `next`. -/
theorem relax_cases {V : Type} [DecidableEq V] {g : WGraph V} {current next : V}
    {s t : DState V} (h : relax g current next s = some t) :
    ∃ ccur, dictGet s.cost_so_far current = some ccur ∧
      ((t = s ∧ ∃ cnext, dictGet s.cost_so_far next = some cnext ∧
          ¬ ccur + g.cost current next < cnext) ∨
       (t = relaxWrite current next (ccur + g.cost current next) s ∧
         ∀ cnext, dictGet s.cost_so_far next = some cnext →
            ccur + g.cost current next < cnext)) := by
  unfold relax at h
  rcases hcur : dictGet s.cost_so_far current with _ | ccur <;> rw [hcur] at h
  · simp at h
  · refine ⟨ccur, rfl, ?_⟩
    rcases hnx : dictGet s.cost_so_far next with _ | cnext <;> rw [hnx] at h
    · simp only [Option.some.injEq] at h
      refine Or.inr ⟨h.symm, fun c hc => ?_⟩
      cases hc
    · by_cases hlt : ccur + g.cost current next < cnext
      · simp only [if_pos hlt, Option.some.injEq] at h
        refine Or.inr ⟨h.symm, fun c hc => ?_⟩
        cases hc
        exact hlt
      · simp only [if_neg hlt, Option.some.injEq] at h
        exact Or.inl ⟨h.symm, cnext, rfl, hlt⟩

/-- Claim C9: during a Dijkstra run, once a location has an entry in
`cost_so_far`, any relaxation either leaves the entry unchanged or
strictly decreases it — every genuine update strictly decreases the
recorded cost. -/
theorem C9_update_strictly_decreases {V : Type} [DecidableEq V] (g : WGraph V)
    (current next : V) (s t : DState V) (k : V) (c cNew : ℚ)
    (hrel : relax g current next s = some t)
    (hold : dictGet s.cost_so_far k = some c)
    (hnew : dictGet t.cost_so_far k = some cNew) :
    cNew = c ∨ cNew < c := by
  rcases relax_cases hrel with ⟨ccur, hcur, hcase⟩
  rcases hcase with ⟨rfl, _⟩ | ⟨rfl, hguard⟩
  · rw [hold] at hnew
    cases hnew
    exact Or.inl rfl
  · by_cases hk : k = next
    · subst hk
      have hlt := hguard c hold
      rw [show (relaxWrite current k (ccur + g.cost current k) s).cost_so_far =
          dictPut s.cost_so_far k (ccur + g.cost current k) from rfl,
        dictGet_dictPut_self] at hnew
      cases hnew
      exact Or.inr hlt
    · rw [show (relaxWrite current next (ccur + g.cost current next) s).cost_so_far =
          dictPut s.cost_so_far next (ccur + g.cost current next) from rfl,
        dictGet_dictPut_ne _ _ hk, hold] at hnew
      cases hnew
      exact Or.inl rfl

/-- Witness for C9: a concrete relaxation that strictly improves an
existing entry. -/
theorem C9_witness : ((2 : ℚ) = 5 ∨ (2 : ℚ) < 5) :=
  C9_update_strictly_decreases (V := ℕ) ⟨fun _ => [1], fun _ _ => 2⟩ 0 1
    ⟨[], [(0, none), (1, some 0)], [(0, 0), (1, 5)], []⟩
    ⟨[(2, 1)], [(0, none), (1, some 0)], [(0, 0), (1, 2)], []⟩
    1 5 2 (by norm_num [relax, relaxWrite, dictGet, dictPut])
    (by norm_num [dictGet]) (by norm_num [dictGet])

/-! ## Path reconstruction claims -/

/-- Counterexample to claim C8 as stated: with an empty `came_from` table
and `start = goal = 0`, `reconstruct_path` takes the no-path branch and
returns the empty sequence, not `[start]`. -/
theorem C8_counterexample :
    reconstruct_path ([] : List (ℕ × Option ℕ)) 0 0 1 ≠ .done [0] := by decide

/-- Claim C8 (amended): for every `came_from` table that has an entry for
`goal`, and `start = goal`, `reconstruct_path` returns the single-element
sequence containing just `start`.  (The fuel bound `1 ≤ fuel` is an
artifact of the fuel-indexed embedding: the walk exits immediately.) -/
theorem C8_reconstruct_self {V : Type} [DecidableEq V]
    (came_from : List (V × Option V)) (start : V)
    (h : (dictGet came_from start).isSome) (fuel : Nat) (hf : 1 ≤ fuel) :
    reconstruct_path came_from start start fuel = .done [start] := by
  obtain ⟨m, rfl⟩ : ∃ m, fuel = m + 1 := ⟨fuel - 1, by omega⟩
  unfold reconstruct_path
  rw [if_pos h]
  simp [reconstructGo]

/-- Witness for C8: a table with a `start` entry, `start = goal`. -/
theorem C8_witness :
    reconstruct_path [((0 : ℕ), (none : Option ℕ))] 0 0 1 = .done [0] :=
  C8_reconstruct_self [(0, none)] 0 (by decide) 1 (by decide)

theorem reconstructGo_done_of_leads {V : Type} [DecidableEq V]
    {cf : List (V × Option V)} {start : V} {c : V} (h : LeadsTo cf start c) :
    ∀ acc : List V, ∃ fuel p, reconstructGo cf start fuel (some c) acc = .done p := by
  induction h with
  | base =>
      intro acc
      exact ⟨1, (acc ++ [start]).reverse, by simp [reconstructGo]⟩
  | @step v p hlook htail ih =>
      intro acc
      by_cases hvs : v = start
      · exact ⟨1, (acc ++ [v]).reverse, by simp [reconstructGo, hvs]⟩
      · obtain ⟨fuel, q, hq⟩ := ih (acc ++ [v])
        refine ⟨fuel + 1, q, ?_⟩
        unfold reconstructGo
        rw [if_neg hvs, hlook]
        exact hq

/-- Claim C6: `reconstruct_path` terminates for every `came_from` table
whose backpointers form a tree rooted at `start` (every chain of lookups
from any key reaches `start` in finitely many steps): some finite fuel
makes the walk return normally. -/
theorem C6_reconstruct_terminates {V : Type} [DecidableEq V]
    (cf : List (V × Option V)) (start : V)
    (hT : ∀ v, (dictGet cf v).isSome → LeadsTo cf start v) (goal : V) :
    ∃ fuel p, reconstruct_path cf start goal fuel = .done p := by
  by_cases hg : (dictGet cf goal).isSome
  · obtain ⟨fuel, p, hp⟩ := reconstructGo_done_of_leads (hT goal hg) []
    exact ⟨fuel, p, by unfold reconstruct_path; rw [if_pos hg]; exact hp⟩
  · refine ⟨0, [], ?_⟩
    unfold reconstruct_path
    rw [if_neg hg]

/-- Witness for C6: a two-entry tree table rooted at 0. -/
theorem C6_witness : ∃ fuel p,
    reconstruct_path [((0 : ℕ), (none : Option ℕ)), (1, some 0)] 0 1 fuel = .done p :=
  C6_reconstruct_terminates [(0, none), (1, some 0)] 0
    (by
      intro v hv
      by_cases h0 : v = 0
      · subst h0; exact LeadsTo.base
      · by_cases h1 : v = 1
        · subst h1
          exact LeadsTo.step (by decide) LeadsTo.base
        · exfalso
          simp [dictGet, Ne.symm h0, Ne.symm h1] at hv) 1

/-! ## Key-set equality of the two tables (C10) -/

/-- The `came_from` and `cost_so_far` dicts have the same keys in the same
order: they are written together at initialization and at every
relaxation. -/
def KeysEq {V : Type} (s : DState V) : Prop :=
  s.came_from.map Prod.fst = s.cost_so_far.map Prod.fst

theorem relax_keysEq {V : Type} [DecidableEq V] {g : WGraph V} {current next : V}
    {s t : DState V} (h : relax g current next s = some t) (hk : KeysEq s) :
    KeysEq t := by
  rcases relax_cases h with ⟨ccur, hcur, hcase⟩
  rcases hcase with ⟨rfl, _⟩ | ⟨rfl, hguard⟩
  · exact hk
  · unfold KeysEq at hk ⊢
    show (dictPut s.came_from next (some current)).map Prod.fst =
      (dictPut s.cost_so_far next (ccur + g.cost current next)).map Prod.fst
    by_cases hnx : (dictGet s.cost_so_far next).isSome
    · have hnx2 : (dictGet s.came_from next).isSome := by
        rw [dictGet_mem_keys, hk]
        exact dictGet_mem_keys.mp hnx
      rw [dictPut_keys_of_mem _ hnx2, dictPut_keys_of_mem _ hnx, hk]
    · have h1 : dictGet s.cost_so_far next = none :=
        Option.not_isSome_iff_eq_none.mp hnx
      have h2 : dictGet s.came_from next = none := by
        apply Option.not_isSome_iff_eq_none.mp
        intro hs
        apply hnx
        rw [dictGet_mem_keys, ← hk]
        exact dictGet_mem_keys.mp hs
      rw [dictPut_keys_of_not_mem _ h2, dictPut_keys_of_not_mem _ h1, hk]

theorem expandGo_keysEq {V : Type} [DecidableEq V] {g : WGraph V} {current : V} :
    ∀ {ns : List V} {s t : DState V}, expandGo g current ns s = some t →
      KeysEq s → KeysEq t := by
  intro ns
  induction ns with
  | nil =>
      intro s t h hk
      simp only [expandGo, Option.some.injEq] at h
      subst h
      exact hk
  | cons next rest ih =>
      intro s t h hk
      simp only [expandGo] at h
      rcases hr : relax g current next s with _ | u <;> rw [hr] at h
      · cases h
      · exact ih h (relax_keysEq hr hk)

theorem dijkstraLoop_keysEq {V : Type} [LinearOrder V] {g : WGraph V} {goal : V} :
    ∀ (fuel : Nat) (s : DState V) (cf : List (V × Option V)) (csf : List (V × ℚ))
      (tr : List V),
      KeysEq s → dijkstraLoop g goal fuel s = .done (cf, csf, tr) →
      cf.map Prod.fst = csf.map Prod.fst := by
  intro fuel
  induction fuel with
  | zero =>
      intro s cf csf tr _ h
      simp [dijkstraLoop] at h
  | succ n ih =>
      intro s cf csf tr hk hrun
      rw [dijkstraLoop] at hrun
      rcases hpop : popMin s.frontier with _ | ⟨⟨pr, cur⟩, rest⟩ <;> rw [hpop] at hrun
      · simp only [RunRes.done.injEq, Prod.mk.injEq] at hrun
        obtain ⟨rfl, rfl, rfl⟩ := hrun
        exact hk
      · by_cases hg : cur = goal
        · subst hg
          simp only [eq_self_iff_true, if_true, RunRes.done.injEq, Prod.mk.injEq] at hrun
          obtain ⟨rfl, rfl, rfl⟩ := hrun
          exact hk
        · simp only [if_neg hg] at hrun
          rcases hexp : expandGo g cur (g.neighbors cur)
              { s with frontier := rest, popped := s.popped ++ [cur] } with _ | t <;>
            rw [hexp] at hrun
          · cases hrun
          · exact ih t cf csf tr (expandGo_keysEq hexp hk) hrun

/-- Claim C10: the two tables returned by `dijkstra_search` have exactly
the same key set: a location has an entry in `came_from` if and only if it
has one in `cost_so_far`. -/
theorem C10_key_sets_equal {V : Type} [LinearOrder V] (g : WGraph V)
    (start goal : V) (fuel : Nat) (cf : List (V × Option V)) (csf : List (V × ℚ))
    (hrun : dijkstra_search g start goal fuel = .done (cf, csf)) :
    ∀ v, (dictGet cf v).isSome ↔ (dictGet csf v).isSome := by
  unfold dijkstra_search at hrun
  rcases hloop : dijkstraLoop g goal fuel (dijkstraInit start) with _ | _ | ⟨cf1, csf1, tr1⟩
  · rw [hloop] at hrun; cases hrun
  · rw [hloop] at hrun; cases hrun
  · rw [hloop] at hrun
    simp only [RunRes.done.injEq, Prod.mk.injEq] at hrun
    have hkeys := dijkstraLoop_keysEq fuel (dijkstraInit start) cf1 csf1 tr1
      (by simp [dijkstraInit, KeysEq]) hloop
    intro v
    rw [dictGet_mem_keys, dictGet_mem_keys, ← hrun.1, ← hrun.2, hkeys]

/-- The two-node weighted example used for concrete Dijkstra witnesses. -/
def exampleGraphW : WGraph ℕ :=
  ⟨fun v => if v = 0 then [1] else [], fun _ _ => 1⟩

/-- Witness for C10: a concrete terminating Dijkstra run. -/
theorem C10_witness :
    (dictGet [((0 : ℕ), (none : Option ℕ)), (1, some 0)] 1).isSome ↔
    (dictGet [((0 : ℕ), (0 : ℚ)), (1, 1)] 1).isSome :=
  C10_key_sets_equal exampleGraphW 0 1 3 [(0, none), (1, some 0)] [(0, 0), (1, 1)]
    (by norm_num [dijkstra_search, dijkstraLoop, dijkstraInit, popMin, expandGo,
      relax, relaxWrite, dictGet, dictPut, exampleGraphW]) 1

/-! ## Dijkstra state invariants -/

/-- Every recorded cost is the cost of an actual walk from `start`. -/
def Realized {V : Type} [DecidableEq V] (g : WGraph V) (start : V) (s : DState V) : Prop :=
  ∀ v c, dictGet s.cost_so_far v = some c → Walk g start v c

/-- The start location keeps its initial entries: the `None` backpointer
sentinel and cost `0`. -/
def StartEntry {V : Type} [DecidableEq V] (start : V) (s : DState V) : Prop :=
  dictGet s.came_from start = some none ∧ dictGet s.cost_so_far start = some 0

/-- Every backpointer entry `came_from[v] = p` is a genuine edge whose
relaxation bound still holds: `cost_so_far[p] + cost(p, v) ≤ cost_so_far[v]`
(equality at write time; the parent cost can only have decreased since). -/
def ChainInv {V : Type} [DecidableEq V] (g : WGraph V) (s : DState V) : Prop :=
  ∀ v p, dictGet s.came_from v = some (some p) →
    v ∈ g.neighbors p ∧ ∃ cv cp, dictGet s.cost_so_far v = some cv ∧
      dictGet s.cost_so_far p = some cp ∧ cp + g.cost p v ≤ cv

/-- Backpointers from every key lead to `start`. -/
def TreeInv {V : Type} [DecidableEq V] (start : V) (s : DState V) : Prop :=
  ∀ v, (dictGet s.came_from v).isSome → LeadsTo s.came_from start v

/-- Every frontier entry's priority is an upper bound on the current
recorded cost of its location (entries go stale, never fresh). -/
def FrontLe {V : Type} [DecidableEq V] (s : DState V) : Prop :=
  ∀ e ∈ s.frontier, ∃ c, dictGet s.cost_so_far e.2 = some c ∧ c ≤ e.1

/-- Every frontier entry's location has a recorded cost. -/
def FrontKeys {V : Type} [DecidableEq V] (s : DState V) : Prop :=
  ∀ e ∈ s.frontier, (dictGet s.cost_so_far e.2).isSome

/-- Every dequeued location has a recorded cost. -/
def PoppedKeys {V : Type} [DecidableEq V] (s : DState V) : Prop :=
  ∀ L ∈ s.popped, (dictGet s.cost_so_far L).isSome

/-- All out-edges of `v` satisfy the triangle inequality with respect to
the current cost table. -/
def RelaxedAt {V : Type} [DecidableEq V] (g : WGraph V) (s : DState V)
    (v : V) (c : ℚ) : Prop :=
  ∀ y ∈ g.neighbors v, ∃ cy, dictGet s.cost_so_far y = some cy ∧
    cy ≤ c + g.cost v y

/-- Every location with a recorded cost either has a frontier entry at
exactly that cost, or all its out-edges are relaxed. -/
def RelaxedInv {V : Type} [DecidableEq V] (g : WGraph V) (s : DState V) : Prop :=
  ∀ v c, dictGet s.cost_so_far v = some c →
    (c, v) ∈ s.frontier ∨ RelaxedAt g s v c

/-- Every dequeued location's recorded cost is optimal among all walks. -/
def PoppedInv {V : Type} [DecidableEq V] (g : WGraph V) (start : V) (s : DState V) : Prop :=
  ∀ L ∈ s.popped, ∃ c, dictGet s.cost_so_far L = some c ∧
    ∀ c2, Walk g start L c2 → c ≤ c2

/-- The invariants that hold at every micro-step of the search, used for
the backpointer-tree claim. -/
structure WeakInv {V : Type} [DecidableEq V] (g : WGraph V) (start : V)
    (s : DState V) : Prop where
  keys : KeysEq s
  realized : Realized g start s
  startE : StartEntry start s
  chain : ChainInv g s
  tree : TreeInv start s

theorem relax_frontier_sub {V : Type} [DecidableEq V] {g : WGraph V}
    {current next : V} {s t : DState V} (h : relax g current next s = some t) :
    ∀ e, e ∈ s.frontier → e ∈ t.frontier := by
  rcases relax_cases h with ⟨ccur, hcur, hcase⟩
  rcases hcase with ⟨rfl, _⟩ | ⟨rfl, _⟩
  · intro e he; exact he
  · intro e he
    exact List.mem_append.mpr (Or.inl he)

theorem relax_csf_le {V : Type} [DecidableEq V] {g : WGraph V}
    {current next : V} {s t : DState V} (h : relax g current next s = some t) :
    ∀ k c, dictGet s.cost_so_far k = some c →
      ∃ c2, dictGet t.cost_so_far k = some c2 ∧ c2 ≤ c := by
  rcases relax_cases h with ⟨ccur, hcur, hcase⟩
  rcases hcase with ⟨rfl, _⟩ | ⟨rfl, hguard⟩
  · intro k c hk; exact ⟨c, hk, le_refl c⟩
  · intro k c hk
    by_cases hkn : k = next
    · subst hkn
      refine ⟨ccur + g.cost current k, ?_, le_of_lt (hguard c hk)⟩
      show dictGet (dictPut s.cost_so_far k (ccur + g.cost current k)) k = _
      exact dictGet_dictPut_self _ _ _
    · refine ⟨c, ?_, le_refl c⟩
      show dictGet (dictPut s.cost_so_far next (ccur + g.cost current next)) k = some c
      rw [dictGet_dictPut_ne _ _ hkn]
      exact hk

theorem relax_csf_isSome {V : Type} [DecidableEq V] {g : WGraph V}
    {current next : V} {s t : DState V} (h : relax g current next s = some t) :
    ∀ k, (dictGet s.cost_so_far k).isSome → (dictGet t.cost_so_far k).isSome := by
  intro k hk
  obtain ⟨c, hc⟩ := Option.isSome_iff_exists.mp hk
  obtain ⟨c2, hc2, _⟩ := relax_csf_le h k c hc
  rw [hc2]
  rfl

/-- Rewriting the pointer of `next` preserves chains whose every node has
recorded cost strictly below every recorded cost of `next`. -/
theorem leadsTo_dictPut {V : Type} [DecidableEq V] {g : WGraph V}
    {start next : V} {s : DState V} (hnn : NonnegCosts g) (hch : ChainInv g s)
    (pval : Option V) :
    ∀ v cv, LeadsTo s.came_from start v → dictGet s.cost_so_far v = some cv →
      (∀ cn, dictGet s.cost_so_far next = some cn → cv < cn) →
      LeadsTo (dictPut s.came_from next pval) start v := by
  intro v cv h
  induction h generalizing cv with
  | base =>
      intro _ _
      exact LeadsTo.base
  | @step v p hlook htail ih =>
      intro hcv hblock
      have hvne : v ≠ next := by
        intro hne
        subst hne
        exact absurd (hblock cv hcv) (lt_irrefl cv)
      obtain ⟨hedge2, cv2, cp, hv2, hp, hle⟩ := hch v p hlook
      rw [hv2] at hcv
      injection hcv with hcv
      subst hcv
      have hcp : cp ≤ cv2 :=
        le_trans (le_add_of_nonneg_right (hnn p v hedge2)) hle
      refine LeadsTo.step ?_ (ih cp hp (fun cn hcn => lt_of_le_of_lt hcp (hblock cn hcn)))
      rw [dictGet_dictPut_ne _ _ hvne]
      exact hlook

theorem relax_weakInv {V : Type} [DecidableEq V] {g : WGraph V}
    {start current next : V} {s t : DState V} (hnn : NonnegCosts g)
    (hedge : next ∈ g.neighbors current) (hrel : relax g current next s = some t)
    (hw : WeakInv g start s) : WeakInv g start t := by
  have hkeys : KeysEq t := relax_keysEq hrel hw.keys
  rcases relax_cases hrel with ⟨ccur, hcur, hcase⟩
  rcases hcase with ⟨rfl, _⟩ | ⟨rfl, hguard⟩
  · exact hw
  · have hwalkc : Walk g start current ccur := hw.realized current ccur hcur
    have hccur0 : 0 ≤ ccur := Walk.nonneg hnn hwalkc
    have hnc0 : 0 ≤ ccur + g.cost current next :=
      add_nonneg hccur0 (hnn current next hedge)
    have hns : next ≠ start := by
      intro hne
      subst hne
      exact absurd (hguard 0 hw.startE.2) (not_lt.mpr hnc0)
    have hcurkey : (dictGet s.came_from current).isSome := by
      rw [dictGet_mem_keys, hw.keys]
      apply dictGet_mem_keys.mp
      rw [hcur]
      rfl
    have htree_cur : LeadsTo (dictPut s.came_from next (some current)) start current := by
      apply leadsTo_dictPut hnn hw.chain _ current ccur (hw.tree current hcurkey) hcur
      intro cn hcn
      exact lt_of_le_of_lt
        (le_add_of_nonneg_right (hnn current next hedge)) (hguard cn hcn)
    have htree_next : LeadsTo (dictPut s.came_from next (some current)) start next :=
      LeadsTo.step (dictGet_dictPut_self _ _ _) htree_cur
    have hreroute : ∀ v, LeadsTo s.came_from start v →
        LeadsTo (dictPut s.came_from next (some current)) start v := by
      intro v h
      induction h with
      | base => exact LeadsTo.base
      | @step v p hlook htail ih =>
          by_cases hv : v = next
          · subst hv
            exact htree_next
          · refine LeadsTo.step ?_ ih
            rw [dictGet_dictPut_ne _ _ hv]
            exact hlook
    refine ⟨hkeys, ?_, ?_, ?_, ?_⟩
    · intro v c hvc
      show Walk g start v c
      by_cases hv : v = next
      · subst hv
        rw [show (relaxWrite current v (ccur + g.cost current v) s).cost_so_far =
            dictPut s.cost_so_far v (ccur + g.cost current v) from rfl,
          dictGet_dictPut_self] at hvc
        injection hvc with hvc
        subst hvc
        exact hwalkc.snoc hedge
      · rw [show (relaxWrite current next (ccur + g.cost current next) s).cost_so_far =
            dictPut s.cost_so_far next (ccur + g.cost current next) from rfl,
          dictGet_dictPut_ne _ _ hv] at hvc
        exact hw.realized v c hvc
    · constructor
      · show dictGet (dictPut s.came_from next (some current)) start = some none
        rw [dictGet_dictPut_ne _ _ (Ne.symm hns)]
        exact hw.startE.1
      · show dictGet (dictPut s.cost_so_far next (ccur + g.cost current next)) start = some 0
        rw [dictGet_dictPut_ne _ _ (Ne.symm hns)]
        exact hw.startE.2
    · intro v p hvp
      rw [show (relaxWrite current next (ccur + g.cost current next) s).came_from =
          dictPut s.came_from next (some current) from rfl] at hvp
      by_cases hv : v = next
      · rw [hv, dictGet_dictPut_self] at hvp
        have hp : p = current := by
          injection hvp with h1
          injection h1 with h2
          exact h2.symm
        rw [hp, hv]
        refine ⟨hedge, ?_⟩
        by_cases hcn : current = next
        · have hguard2 : ccur + g.cost current next < ccur := by
            apply hguard
            rw [← hcn]
            exact hcur
          have hcneg : g.cost current next < 0 := by linarith
          refine ⟨ccur + g.cost current next, ccur + g.cost current next, ?_, ?_, by linarith⟩
          · show dictGet (dictPut s.cost_so_far next (ccur + g.cost current next)) next = _
            exact dictGet_dictPut_self _ _ _
          · show dictGet (dictPut s.cost_so_far next (ccur + g.cost current next)) current = _
            rw [hcn]
            exact dictGet_dictPut_self _ _ _
        · refine ⟨ccur + g.cost current next, ccur, ?_, ?_, le_refl _⟩
          · show dictGet (dictPut s.cost_so_far next (ccur + g.cost current next)) next = _
            exact dictGet_dictPut_self _ _ _
          · show dictGet (dictPut s.cost_so_far next (ccur + g.cost current next)) current = some ccur
            rw [dictGet_dictPut_ne _ _ hcn]
            exact hcur
      · rw [dictGet_dictPut_ne _ _ hv] at hvp
        obtain ⟨hedge2, cv, cp, hcv, hcp, hle⟩ := hw.chain v p hvp
        refine ⟨hedge2, cv, ?_⟩
        have hcv2 : dictGet (relaxWrite current next (ccur + g.cost current next)
            s).cost_so_far v = some cv := by
          show dictGet (dictPut s.cost_so_far next (ccur + g.cost current next)) v = some cv
          rw [dictGet_dictPut_ne _ _ hv]
          exact hcv
        by_cases hp : p = next
        · subst hp
          refine ⟨ccur + g.cost current p, hcv2, ?_, ?_⟩
          · show dictGet (dictPut s.cost_so_far p (ccur + g.cost current p)) p = _
            exact dictGet_dictPut_self _ _ _
          · exact le_trans (add_le_add_right (le_of_lt (hguard cp hcp)) _) hle
        · refine ⟨cp, hcv2, ?_, hle⟩
          show dictGet (dictPut s.cost_so_far next (ccur + g.cost current next)) p = some cp
          rw [dictGet_dictPut_ne _ _ hp]
          exact hcp
    · intro v hv
      rw [show (relaxWrite current next (ccur + g.cost current next) s).came_from =
          dictPut s.came_from next (some current) from rfl] at hv ⊢
      by_cases hvn : v = next
      · subst hvn
        exact htree_next
      · apply hreroute
        apply hw.tree
        rw [dictGet_dictPut_ne _ _ hvn] at hv
        exact hv

theorem relax_frontLe {V : Type} [DecidableEq V] {g : WGraph V} {current next : V}
    {s t : DState V} (hrel : relax g current next s = some t) (hfl : FrontLe s) :
    FrontLe t := by
  rcases relax_cases hrel with ⟨ccur, hcur, hcase⟩
  rcases hcase with ⟨rfl, _⟩ | ⟨rfl, hguard⟩
  · exact hfl
  · intro e he
    rcases List.mem_append.mp he with he | he
    · obtain ⟨c, hc, hle⟩ := hfl e he
      obtain ⟨c2, hc2, hle2⟩ := relax_csf_le hrel e.2 c hc
      exact ⟨c2, hc2, le_trans hle2 hle⟩
    · rcases List.mem_singleton.mp he with rfl
      refine ⟨ccur + g.cost current next, ?_, le_refl _⟩
      show dictGet (dictPut s.cost_so_far next (ccur + g.cost current next)) next = _
      exact dictGet_dictPut_self _ _ _

theorem relax_popped {V : Type} [DecidableEq V] {g : WGraph V} {current next : V}
    {s t : DState V} (hrel : relax g current next s = some t) :
    t.popped = s.popped := by
  rcases relax_cases hrel with ⟨ccur, hcur, hcase⟩
  rcases hcase with ⟨rfl, _⟩ | ⟨rfl, _⟩ <;> rfl

theorem relax_poppedInv {V : Type} [DecidableEq V] {g : WGraph V}
    {start current next : V} {s t : DState V} (hedge : next ∈ g.neighbors current)
    (hrel : relax g current next s = some t) (hre : Realized g start s)
    (hpi : PoppedInv g start s) : PoppedInv g start t := by
  rcases relax_cases hrel with ⟨ccur, hcur, hcase⟩
  rcases hcase with ⟨rfl, _⟩ | ⟨rfl, hguard⟩
  · exact hpi
  · intro L hL
    obtain ⟨c, hc, hopt⟩ := hpi L hL
    by_cases hLn : L = next
    · subst hLn
      exfalso
      have hwalk : Walk g start L (ccur + g.cost current L) :=
        (hre current ccur hcur).snoc hedge
      exact absurd (hguard c hc) (not_lt.mpr (hopt _ hwalk))
    · refine ⟨c, ?_, hopt⟩
      show dictGet (dictPut s.cost_so_far next (ccur + g.cost current next)) L = some c
      rw [dictGet_dictPut_ne _ _ hLn]
      exact hc

theorem relax_csf_current {V : Type} [DecidableEq V] {g : WGraph V}
    {current next : V} {s t : DState V} (hnn : NonnegCosts g)
    (hedge : next ∈ g.neighbors current) (hrel : relax g current next s = some t)
    {ccur : ℚ} (hcur : dictGet s.cost_so_far current = some ccur) :
    dictGet t.cost_so_far current = some ccur := by
  rcases relax_cases hrel with ⟨ccur2, hcur2, hcase⟩
  rw [hcur] at hcur2
  injection hcur2 with h2
  subst h2
  rcases hcase with ⟨rfl, _⟩ | ⟨rfl, hguard⟩
  · exact hcur
  · by_cases hcn : current = next
    · exfalso
      have hnx : dictGet s.cost_so_far next = some ccur := by
        rw [← hcn]
        exact hcur
      have hlt := hguard ccur hnx
      have h0 : 0 ≤ g.cost current next := hnn current next hedge
      linarith
    · show dictGet (dictPut s.cost_so_far next (ccur + g.cost current next)) current = some ccur
      rw [dictGet_dictPut_ne _ _ hcn]
      exact hcur

theorem relax_relaxedExcept {V : Type} [DecidableEq V] {g : WGraph V}
    {current next : V} {s t : DState V} (hrel : relax g current next s = some t)
    (hexc : ∀ v c, dictGet s.cost_so_far v = some c →
      (c, v) ∈ s.frontier ∨ RelaxedAt g s v c ∨ v = current) :
    ∀ v c, dictGet t.cost_so_far v = some c →
      (c, v) ∈ t.frontier ∨ RelaxedAt g t v c ∨ v = current := by
  rcases relax_cases hrel with ⟨ccur, hcur, hcase⟩
  rcases hcase with ⟨rfl, _⟩ | ⟨rfl, hguard⟩
  · exact hexc
  · intro v c hvc
    by_cases hv : v = next
    · subst hv
      left
      rw [show (relaxWrite current v (ccur + g.cost current v) s).cost_so_far =
          dictPut s.cost_so_far v (ccur + g.cost current v) from rfl,
        dictGet_dictPut_self] at hvc
      injection hvc with hvc
      subst hvc
      show (ccur + g.cost current v, v) ∈ s.frontier ++ [(ccur + g.cost current v, v)]
      exact List.mem_append.mpr (Or.inr (List.mem_singleton.mpr rfl))
    · rw [show (relaxWrite current next (ccur + g.cost current next) s).cost_so_far =
          dictPut s.cost_so_far next (ccur + g.cost current next) from rfl,
        dictGet_dictPut_ne _ _ hv] at hvc
      rcases hexc v c hvc with hf | hr | hcurc
      · left
        exact List.mem_append.mpr (Or.inl hf)
      · right; left
        intro y hy
        obtain ⟨cy, hcy, hle⟩ := hr y hy
        obtain ⟨cy2, hcy2, hle2⟩ := relax_csf_le hrel y cy hcy
        exact ⟨cy2, hcy2, le_trans hle2 hle⟩
      · right; right
        exact hcurc

theorem expandGo_inv {V : Type} [DecidableEq V] {g : WGraph V} {start current : V}
    (hnn : NonnegCosts g) :
    ∀ (pending : List V) (s t : DState V) (ccur : ℚ),
      (∀ y ∈ pending, y ∈ g.neighbors current) →
      expandGo g current pending s = some t →
      WeakInv g start s → FrontLe s → PoppedInv g start s →
      dictGet s.cost_so_far current = some ccur →
      (∀ v c, dictGet s.cost_so_far v = some c →
        (c, v) ∈ s.frontier ∨ RelaxedAt g s v c ∨ v = current) →
      (∀ y, y ∈ g.neighbors current → y ∉ pending →
        ∃ cy, dictGet s.cost_so_far y = some cy ∧ cy ≤ ccur + g.cost current y) →
      WeakInv g start t ∧ FrontLe t ∧ PoppedInv g start t ∧
        dictGet t.cost_so_far current = some ccur ∧
        (∀ v c, dictGet t.cost_so_far v = some c →
          (c, v) ∈ t.frontier ∨ RelaxedAt g t v c ∨ v = current) ∧
        (∀ y, y ∈ g.neighbors current →
          ∃ cy, dictGet t.cost_so_far y = some cy ∧ cy ≤ ccur + g.cost current y) ∧
        t.popped = s.popped := by
  intro pending
  induction pending with
  | nil =>
      intro s t ccur hpend hrun hw hfl hpi hcur hexc hdone
      simp only [expandGo, Option.some.injEq] at hrun
      subst hrun
      exact ⟨hw, hfl, hpi, hcur, hexc, fun y hy => hdone y hy (by simp), rfl⟩
  | cons next rest ih =>
      intro s t ccur hpend hrun hw hfl hpi hcur hexc hdone
      simp only [expandGo] at hrun
      rcases hr : relax g current next s with _ | u <;> rw [hr] at hrun
      · cases hrun
      · have hedge : next ∈ g.neighbors current := hpend next (List.mem_cons_self _ _)
        have hw1 := relax_weakInv hnn hedge hr hw
        have hfl1 := relax_frontLe hr hfl
        have hpi1 := relax_poppedInv hedge hr hw.realized hpi
        have hcur1 := relax_csf_current hnn hedge hr hcur
        have hexc1 := relax_relaxedExcept hr hexc
        have hdone1 : ∀ y, y ∈ g.neighbors current → y ∉ rest →
            ∃ cy, dictGet u.cost_so_far y = some cy ∧
              cy ≤ ccur + g.cost current y := by
          intro y hy hyr
          by_cases hyn : y = next
          · subst hyn
            rcases relax_cases hr with ⟨ccur2, hcur2, hcase⟩
            rw [hcur] at hcur2
            injection hcur2 with h2
            subst h2
            rcases hcase with ⟨rfl, cnext, hnx, hnlt⟩ | ⟨rfl, hguard⟩
            · exact ⟨cnext, hnx, not_lt.mp hnlt⟩
            · refine ⟨ccur + g.cost current y, ?_, le_refl _⟩
              show dictGet (dictPut s.cost_so_far y (ccur + g.cost current y)) y = _
              exact dictGet_dictPut_self _ _ _
          · obtain ⟨cy, hcy, hle⟩ := hdone y hy (by
              intro hmem
              rcases List.mem_cons.mp hmem with h | h
              · exact hyn h
              · exact hyr h)
            obtain ⟨cy2, hcy2, hle2⟩ := relax_csf_le hr y cy hcy
            exact ⟨cy2, hcy2, le_trans hle2 hle⟩
        have hrec := ih u t ccur (fun y hy => hpend y (List.mem_cons_of_mem _ hy))
          hrun hw1 hfl1 hpi1 hcur1 hexc1 hdone1
        refine ⟨hrec.1, hrec.2.1, hrec.2.2.1, hrec.2.2.2.1, hrec.2.2.2.2.1,
          hrec.2.2.2.2.2.1, ?_⟩
        rw [hrec.2.2.2.2.2.2, relax_popped hr]

/-! ## The frontier-cut argument and the loop master theorem -/

/-- Along any walk, either the endpoint already has a cost no larger than
the walk's, or some frontier entry's priority is no larger than the walk's
cost.  This is the cut argument behind the optimality of dequeued
locations. -/
theorem frontier_cut {V : Type} [DecidableEq V] {g : WGraph V} {start : V}
    {s : DState V} (hnn : NonnegCosts g) (hst : StartEntry start s)
    (hrx : RelaxedInv g s) :
    ∀ v c, Walk g start v c →
      (∃ cv, dictGet s.cost_so_far v = some cv ∧ cv ≤ c) ∨
      (∃ e ∈ s.frontier, e.1 ≤ c) := by
  intro v c h
  induction h with
  | nil => exact Or.inl ⟨0, hst.2, le_refl 0⟩
  | @snoc u y cu hw hmem ihw =>
      rcases ihw with ⟨cv, hcv, hle⟩ | ⟨e, he, hle⟩
      · rcases hrx u cv hcv with hf | hr
        · exact Or.inr ⟨(cv, u), hf,
            le_trans hle (le_add_of_nonneg_right (hnn u y hmem))⟩
        · obtain ⟨cy, hcy, hley⟩ := hr y hmem
          exact Or.inl ⟨cy, hcy, le_trans hley (add_le_add_right hle _)⟩
      · exact Or.inr ⟨e, he, le_trans hle (le_add_of_nonneg_right (hnn u y hmem))⟩

/-- Any location dequeued by `popMin` has an optimal recorded cost. -/
theorem popMin_optimal {V : Type} [LinearOrder V] {g : WGraph V} {start : V}
    {s : DState V} {m : ℚ × V} {rest : List (ℚ × V)} (hnn : NonnegCosts g)
    (hst : StartEntry start s) (hrx : RelaxedInv g s) (hfl : FrontLe s)
    (hpop : popMin s.frontier = some (m, rest)) :
    ∃ c, dictGet s.cost_so_far m.2 = some c ∧
      ∀ c2, Walk g start m.2 c2 → c ≤ c2 := by
  have hmem : m ∈ s.frontier := (popMin_perm hpop).mem_iff.mpr (List.mem_cons_self _ _)
  obtain ⟨c, hc, hle⟩ := hfl m hmem
  refine ⟨c, hc, ?_⟩
  intro c2 hwk
  rcases frontier_cut hnn hst hrx m.2 c2 hwk with ⟨cv, hcv, hlev⟩ | ⟨e, he, hlee⟩
  · rw [hc] at hcv
    injection hcv with h
    subst h
    exact hlev
  · exact le_trans (le_trans hle (popMin_min hpop e he)) hlee

/-- With an empty frontier every walk endpoint has a recorded cost
bounded by the walk's cost. -/
theorem drained_bound {V : Type} [DecidableEq V] {g : WGraph V} {start : V}
    {s : DState V} (hnn : NonnegCosts g) (hst : StartEntry start s)
    (hrx : RelaxedInv g s) (hfe : s.frontier = []) :
    ∀ v c, Walk g start v c →
      ∃ cv, dictGet s.cost_so_far v = some cv ∧ cv ≤ c := by
  intro v c h
  rcases frontier_cut hnn hst hrx v c h with h1 | ⟨e, he, _⟩
  · exact h1
  · rw [hfe] at he
    cases he

theorem dijkstraInit_weakInv {V : Type} [DecidableEq V] (g : WGraph V) (start : V) :
    WeakInv g start (dijkstraInit start) := by
  refine ⟨rfl, ?_, ⟨?_, ?_⟩, ?_, ?_⟩
  · intro v c hvc
    simp only [dijkstraInit, dictGet] at hvc
    by_cases hv : start = v
    · rw [if_pos hv] at hvc
      injection hvc with h
      subst h
      subst hv
      exact Walk.nil
    · rw [if_neg hv] at hvc
      cases hvc
  · simp [dijkstraInit, dictGet]
  · simp [dijkstraInit, dictGet]
  · intro v p hvp
    simp only [dijkstraInit, dictGet] at hvp
    by_cases hv : start = v
    · rw [if_pos hv] at hvp
      cases hvp
    · rw [if_neg hv] at hvp
      cases hvp
  · intro v hv
    simp only [dijkstraInit, dictGet] at hv
    by_cases hsv : start = v
    · subst hsv
      exact LeadsTo.base
    · rw [if_neg hsv] at hv
      cases hv

theorem dijkstraInit_frontLe {V : Type} [DecidableEq V] (start : V) :
    FrontLe (dijkstraInit (V := V) start) := by
  intro e he
  simp only [dijkstraInit] at he
  rcases List.mem_singleton.mp he with rfl
  exact ⟨0, by simp [dijkstraInit, dictGet], le_refl 0⟩

theorem dijkstraInit_relaxed {V : Type} [DecidableEq V] (g : WGraph V) (start : V) :
    RelaxedInv g (dijkstraInit start) := by
  intro v c hvc
  simp only [dijkstraInit, dictGet] at hvc
  by_cases hv : start = v
  · rw [if_pos hv] at hvc
    injection hvc with h
    subst h
    subst hv
    left
    simp [dijkstraInit]
  · rw [if_neg hv] at hvc
    cases hvc

theorem dijkstraInit_poppedInv {V : Type} [DecidableEq V] (g : WGraph V) (start : V) :
    PoppedInv g start (dijkstraInit start) := by
  intro L hL
  cases hL

/-- Master invariant theorem for the Dijkstra loop: a successful run ends
in a state satisfying all invariants, and either the goal was dequeued or
the frontier drained with every key fully relaxed. -/
theorem dijkstraLoop_inv {V : Type} [LinearOrder V] {g : WGraph V} {start goal : V}
    (hnn : NonnegCosts g) :
    ∀ (fuel : Nat) (s : DState V) (cf : List (V × Option V)) (csf : List (V × ℚ))
      (tr : List V),
      WeakInv g start s → FrontLe s → RelaxedInv g s → PoppedInv g start s →
      dijkstraLoop g goal fuel s = .done (cf, csf, tr) →
      ∃ sf : DState V, sf.came_from = cf ∧ sf.cost_so_far = csf ∧ sf.popped = tr ∧
        WeakInv g start sf ∧ PoppedInv g start sf ∧
        (goal ∈ tr ∨ (sf.frontier = [] ∧ RelaxedInv g sf)) := by
  intro fuel
  induction fuel with
  | zero =>
      intro s cf csf tr _ _ _ _ h
      simp [dijkstraLoop] at h
  | succ n ih =>
      intro s cf csf tr hw hfl hrx hpi hrun
      rw [dijkstraLoop] at hrun
      rcases hpop : popMin s.frontier with _ | ⟨⟨pr, cur⟩, rest⟩ <;> rw [hpop] at hrun
      · simp only [RunRes.done.injEq, Prod.mk.injEq] at hrun
        obtain ⟨h1, h2, h3⟩ := hrun
        exact ⟨s, h1, h2, h3, hw, hpi, Or.inr ⟨popMin_eq_none.mp hpop, hrx⟩⟩
      · have hopt := popMin_optimal hnn hw.startE hrx hfl hpop
        by_cases hg : cur = goal
        · subst hg
          simp only [eq_self_iff_true, if_true, RunRes.done.injEq, Prod.mk.injEq] at hrun
          obtain ⟨h1, h2, h3⟩ := hrun
          refine ⟨{ s with frontier := rest, popped := s.popped ++ [cur] }, h1, h2, h3,
            ⟨hw.keys, hw.realized, hw.startE, hw.chain, hw.tree⟩, ?_, Or.inl ?_⟩
          · intro L hL
            rcases List.mem_append.mp hL with hL | hL
            · exact hpi L hL
            · rcases List.mem_singleton.mp hL with rfl
              exact hopt
          · rw [← h3]
            exact List.mem_append.mpr (Or.inr (List.mem_singleton.mpr rfl))
        · simp only [if_neg hg] at hrun
          rcases hexp : expandGo g cur (g.neighbors cur)
              { s with frontier := rest, popped := s.popped ++ [cur] } with _ | t <;>
            rw [hexp] at hrun
          · cases hrun
          · set s0 : DState V := { s with frontier := rest, popped := s.popped ++ [cur] }
              with hs0
            have hw0 : WeakInv g start s0 :=
              ⟨hw.keys, hw.realized, hw.startE, hw.chain, hw.tree⟩
            have hfl0 : FrontLe s0 := by
              intro e he
              exact hfl e ((popMin_perm hpop).mem_iff.mpr (List.mem_cons_of_mem _ he))
            have hpi0 : PoppedInv g start s0 := by
              intro L hL
              rcases List.mem_append.mp hL with hL | hL
              · exact hpi L hL
              · rcases List.mem_singleton.mp hL with rfl
                exact hopt
            obtain ⟨ccur, hcur, hcle⟩ := hfl (pr, cur)
              ((popMin_perm hpop).mem_iff.mpr (List.mem_cons_self _ _))
            have hexc0 : ∀ v c, dictGet s0.cost_so_far v = some c →
                (c, v) ∈ s0.frontier ∨ RelaxedAt g s0 v c ∨ v = cur := by
              intro v c hvc
              rcases hrx v c hvc with hf | hr
              · have hmem := (popMin_perm hpop).mem_iff.mp hf
                rcases List.mem_cons.mp hmem with heq | hmem2
                · right; right
                  exact congrArg Prod.snd heq
                · left
                  exact hmem2
              · right; left
                exact hr
            have hgo := expandGo_inv hnn (g.neighbors cur) s0 t ccur (fun y hy => hy)
              hexp hw0 hfl0 hpi0 hcur hexc0 (fun y hy hny => absurd hy hny)
            have hrx1 : RelaxedInv g t := by
              intro v c hvc
              rcases hgo.2.2.2.2.1 v c hvc with hf | hr | hvc2
              · exact Or.inl hf
              · exact Or.inr hr
              · subst hvc2
                right
                rw [hgo.2.2.2.1] at hvc
                injection hvc with h
                subst h
                intro y hy
                exact hgo.2.2.2.2.2.1 y hy
            obtain ⟨sf, e1, e2, e3, hwf, hpf, hdisj⟩ :=
              ih t cf csf tr hgo.1 hgo.2.1 hrx1 hgo.2.2.1 hrun
            exact ⟨sf, e1, e2, e3, hwf, hpf, hdisj⟩

/-- Claim C1: for every graph with non-negative edge costs, whenever
`dijkstra_search(graph, start, goal)` terminates, `cost_so_far[L]` is the
true shortest-path cost from `start` to `L` for every `L` dequeued before
the goal; and if the goal is unreachable, for every reachable `L`. -/
theorem C1_dijkstra_optimal {V : Type} [LinearOrder V] (g : WGraph V)
    (start goal : V) (hnn : NonnegCosts g) (fuel : Nat)
    (cf : List (V × Option V)) (csf : List (V × ℚ)) (tr : List V)
    (hrun : dijkstraLoop g goal fuel (dijkstraInit start) = .done (cf, csf, tr)) :
    (∀ L ∈ tr, L ≠ goal → ∃ c, dictGet csf L = some c ∧ Walk g start L c ∧
      ∀ c2, Walk g start L c2 → c ≤ c2) ∧
    (¬ Reaches g.neighbors start goal →
      ∀ L, Reaches g.neighbors start L → ∃ c, dictGet csf L = some c ∧
        Walk g start L c ∧ ∀ c2, Walk g start L c2 → c ≤ c2) := by
  obtain ⟨sf, e1, e2, e3, hwf, hpf, hdisj⟩ := dijkstraLoop_inv hnn fuel
    (dijkstraInit start) cf csf tr (dijkstraInit_weakInv g start)
    (dijkstraInit_frontLe start) (dijkstraInit_relaxed g start)
    (dijkstraInit_poppedInv g start) hrun
  constructor
  · intro L hL _
    obtain ⟨c, hc, hoptL⟩ := hpf L (by rw [e3]; exact hL)
    have hwalk := hwf.realized L c hc
    rw [e2] at hc
    exact ⟨c, hc, hwalk, hoptL⟩
  · intro hU L hL
    rcases hdisj with hgoal | ⟨hfe, hrx⟩
    · exfalso
      obtain ⟨c, hc, _⟩ := hpf goal (by rw [e3]; exact hgoal)
      exact hU (reaches_iff_walk.mpr ⟨c, hwf.realized goal c hc⟩)
    · obtain ⟨c0, hw0⟩ := reaches_iff_walk.mp hL
      obtain ⟨cv, hcv, _⟩ := drained_bound hnn hwf.startE hrx hfe L c0 hw0
      have hwalk := hwf.realized L cv hcv
      have hcv2 := hcv
      rw [e2] at hcv2
      refine ⟨cv, hcv2, hwalk, ?_⟩
      intro c2 hwk2
      obtain ⟨cv3, hcv3, hle3⟩ := drained_bound hnn hwf.startE hrx hfe L c2 hwk2
      rw [hcv] at hcv3
      injection hcv3 with h
      subst h
      exact hle3

/-- Witness for C1: a concrete two-node run in which the start location is
dequeued before the goal and ends with its exact shortest-path cost. -/
theorem C1_witness : ∃ c, dictGet [((0 : ℕ), (0 : ℚ)), (1, 1)] 0 = some c ∧
    Walk exampleGraphW 0 0 c ∧ ∀ c2, Walk exampleGraphW 0 0 c2 → c ≤ c2 :=
  (C1_dijkstra_optimal exampleGraphW 0 1
    (by intro a b _; norm_num [exampleGraphW]) 3
    [(0, none), (1, some 0)] [(0, 0), (1, 1)] [0, 1]
    (by norm_num [dijkstraLoop, dijkstraInit, popMin, expandGo, relax, relaxWrite,
      dictGet, dictPut, exampleGraphW])).1 0 (by norm_num) (by norm_num)

/-! ## Error-freedom and the unreachable-goal behaviour (C5) -/

theorem relax_realized {V : Type} [DecidableEq V] {g : WGraph V}
    {start current next : V} {s t : DState V}
    (hedge : next ∈ g.neighbors current) (hrel : relax g current next s = some t)
    (hre : Realized g start s) : Realized g start t := by
  rcases relax_cases hrel with ⟨ccur, hcur, hcase⟩
  rcases hcase with ⟨rfl, _⟩ | ⟨rfl, hguard⟩
  · exact hre
  · intro v c hvc
    by_cases hv : v = next
    · subst hv
      rw [show (relaxWrite current v (ccur + g.cost current v) s).cost_so_far =
          dictPut s.cost_so_far v (ccur + g.cost current v) from rfl,
        dictGet_dictPut_self] at hvc
      injection hvc with h
      subst h
      exact (hre current ccur hcur).snoc hedge
    · rw [show (relaxWrite current next (ccur + g.cost current next) s).cost_so_far =
          dictPut s.cost_so_far next (ccur + g.cost current next) from rfl,
        dictGet_dictPut_ne _ _ hv] at hvc
      exact hre v c hvc

theorem relax_frontKeys {V : Type} [DecidableEq V] {g : WGraph V}
    {current next : V} {s t : DState V} (hrel : relax g current next s = some t)
    (hfk : FrontKeys s) : FrontKeys t := by
  have hsub := relax_csf_isSome hrel
  rcases relax_cases hrel with ⟨ccur, hcur, hcase⟩
  rcases hcase with ⟨rfl, _⟩ | ⟨rfl, hguard⟩
  · exact hfk
  · intro e he
    rcases List.mem_append.mp he with he | he
    · exact hsub e.2 (hfk e he)
    · rcases List.mem_singleton.mp he with rfl
      show (dictGet (dictPut s.cost_so_far next (ccur + g.cost current next)) next).isSome
      rw [dictGet_dictPut_self]
      rfl

theorem relax_poppedKeys {V : Type} [DecidableEq V] {g : WGraph V}
    {current next : V} {s t : DState V} (hrel : relax g current next s = some t)
    (hpk : PoppedKeys s) : PoppedKeys t := by
  have hsub := relax_csf_isSome hrel
  have hpop := relax_popped hrel
  intro L hL
  rw [hpop] at hL
  exact hsub L (hpk L hL)

theorem expandGo_light {V : Type} [DecidableEq V] {g : WGraph V} {start current : V} :
    ∀ (pending : List V) (s t : DState V),
      (∀ y ∈ pending, y ∈ g.neighbors current) →
      expandGo g current pending s = some t →
      KeysEq s → Realized g start s → FrontKeys s → PoppedKeys s →
      KeysEq t ∧ Realized g start t ∧ FrontKeys t ∧ PoppedKeys t ∧
        t.popped = s.popped := by
  intro pending
  induction pending with
  | nil =>
      intro s t _ hrun hk hre hfk hpk
      simp only [expandGo, Option.some.injEq] at hrun
      subst hrun
      exact ⟨hk, hre, hfk, hpk, rfl⟩
  | cons next rest ih =>
      intro s t hpend hrun hk hre hfk hpk
      simp only [expandGo] at hrun
      rcases hr : relax g current next s with _ | u <;> rw [hr] at hrun
      · cases hrun
      · have hedge : next ∈ g.neighbors current := hpend next (List.mem_cons_self _ _)
        have hrec := ih u t (fun y hy => hpend y (List.mem_cons_of_mem _ hy)) hrun
          (relax_keysEq hr hk) (relax_realized hedge hr hre)
          (relax_frontKeys hr hfk) (relax_poppedKeys hr hpk)
        refine ⟨hrec.1, hrec.2.1, hrec.2.2.1, hrec.2.2.2.1, ?_⟩
        rw [hrec.2.2.2.2, relax_popped hr]

theorem expandGo_ne_none {V : Type} [DecidableEq V] {g : WGraph V} {current : V} :
    ∀ (pending : List V) (s : DState V),
      (dictGet s.cost_so_far current).isSome →
      expandGo g current pending s ≠ none := by
  intro pending
  induction pending with
  | nil =>
      intro s _ h
      simp [expandGo] at h
  | cons next rest ih =>
      intro s hs h
      simp only [expandGo] at h
      rcases hr : relax g current next s with _ | u <;> rw [hr] at h
      · unfold relax at hr
        rcases hcur : dictGet s.cost_so_far current with _ | c <;> rw [hcur] at hr
        · rw [hcur] at hs
          cases hs
        · rcases hnx : dictGet s.cost_so_far next with _ | c2 <;> rw [hnx] at hr
          · cases hr
          · by_cases hlt : c + g.cost current next < c2
            · simp [hlt] at hr
            · simp [hlt] at hr
      · exact ih u (relax_csf_isSome hr current hs) h

/-- The Dijkstra loop never raises a `KeyError`: every read of
`cost_so_far[current]` is backed by the invariant that frontier entries
have recorded costs. -/
theorem dijkstraLoop_ne_keyError {V : Type} [LinearOrder V] {g : WGraph V}
    {start goal : V} :
    ∀ (fuel : Nat) (s : DState V),
      KeysEq s → Realized g start s → FrontKeys s → PoppedKeys s →
      dijkstraLoop g goal fuel s ≠ .keyError := by
  intro fuel
  induction fuel with
  | zero =>
      intro s _ _ _ _ h
      simp [dijkstraLoop] at h
  | succ n ih =>
      intro s hk hre hfk hpk h
      rw [dijkstraLoop] at h
      rcases hpop : popMin s.frontier with _ | ⟨⟨pr, cur⟩, rest⟩ <;> rw [hpop] at h
      · cases h
      · by_cases hg : cur = goal
        · subst hg
          simp only [eq_self_iff_true, if_true] at h
          cases h
        · simp only [if_neg hg] at h
          have hcur : (dictGet s.cost_so_far cur).isSome :=
            hfk (pr, cur) ((popMin_perm hpop).mem_iff.mpr (List.mem_cons_self _ _))
          rcases hexp : expandGo g cur (g.neighbors cur)
              { s with frontier := rest, popped := s.popped ++ [cur] } with _ | t <;>
            rw [hexp] at h
          · exact expandGo_ne_none (g.neighbors cur)
              { s with frontier := rest, popped := s.popped ++ [cur] } hcur hexp
          · have hfk0 :
                FrontKeys { s with frontier := rest, popped := s.popped ++ [cur] } :=
              fun e he =>
                hfk e ((popMin_perm hpop).mem_iff.mpr (List.mem_cons_of_mem _ he))
            have hpk0 :
                PoppedKeys { s with frontier := rest, popped := s.popped ++ [cur] } := by
              intro L hL
              rcases List.mem_append.mp hL with hL | hL
              · exact hpk L hL
              · rcases List.mem_singleton.mp hL with rfl
                exact hcur
            have hlight := expandGo_light (g.neighbors cur)
              { s with frontier := rest, popped := s.popped ++ [cur] } t
              (fun y hy => hy) hexp hk hre hfk0 hpk0
            exact ih t hlight.1 hlight.2.1 hlight.2.2.1 hlight.2.2.2.1 h

/-- A successful Dijkstra run yields realized final costs, and every
dequeued location has a final cost entry. -/
theorem dijkstraLoop_light {V : Type} [LinearOrder V] {g : WGraph V}
    {start goal : V} :
    ∀ (fuel : Nat) (s : DState V) (cf : List (V × Option V)) (csf : List (V × ℚ))
      (tr : List V),
      KeysEq s → Realized g start s → FrontKeys s → PoppedKeys s →
      dijkstraLoop g goal fuel s = .done (cf, csf, tr) →
      (∀ v c, dictGet csf v = some c → Walk g start v c) ∧
      (∀ L ∈ tr, (dictGet csf L).isSome) := by
  intro fuel
  induction fuel with
  | zero =>
      intro s cf csf tr _ _ _ _ h
      simp [dijkstraLoop] at h
  | succ n ih =>
      intro s cf csf tr hk hre hfk hpk hrun
      rw [dijkstraLoop] at hrun
      rcases hpop : popMin s.frontier with _ | ⟨⟨pr, cur⟩, rest⟩ <;> rw [hpop] at hrun
      · simp only [RunRes.done.injEq, Prod.mk.injEq] at hrun
        obtain ⟨h1, h2, h3⟩ := hrun
        subst h2
        subst h3
        exact ⟨hre, fun L hL => hpk L hL⟩
      · have hcur : (dictGet s.cost_so_far cur).isSome :=
          hfk (pr, cur) ((popMin_perm hpop).mem_iff.mpr (List.mem_cons_self _ _))
        by_cases hg : cur = goal
        · subst hg
          simp only [eq_self_iff_true, if_true, RunRes.done.injEq, Prod.mk.injEq] at hrun
          obtain ⟨h1, h2, h3⟩ := hrun
          subst h2
          subst h3
          refine ⟨hre, ?_⟩
          intro L hL
          rcases List.mem_append.mp hL with hL | hL
          · exact hpk L hL
          · rcases List.mem_singleton.mp hL with rfl
            exact hcur
        · simp only [if_neg hg] at hrun
          rcases hexp : expandGo g cur (g.neighbors cur)
              { s with frontier := rest, popped := s.popped ++ [cur] } with _ | t <;>
            rw [hexp] at hrun
          · cases hrun
          · have hfk0 :
                FrontKeys { s with frontier := rest, popped := s.popped ++ [cur] } :=
              fun e he =>
                hfk e ((popMin_perm hpop).mem_iff.mpr (List.mem_cons_of_mem _ he))
            have hpk0 :
                PoppedKeys { s with frontier := rest, popped := s.popped ++ [cur] } := by
              intro L hL
              rcases List.mem_append.mp hL with hL | hL
              · exact hpk L hL
              · rcases List.mem_singleton.mp hL with rfl
                exact hcur
            have hlight := expandGo_light (g.neighbors cur)
              { s with frontier := rest, popped := s.popped ++ [cur] } t
              (fun y hy => hy) hexp hk hre hfk0 hpk0
            exact ih t cf csf tr hlight.1 hlight.2.1 hlight.2.2.1
              hlight.2.2.2.1 hrun

theorem dijkstraInit_frontKeys {V : Type} [DecidableEq V] (start : V) :
    FrontKeys (dijkstraInit (V := V) start) := by
  intro e he
  rcases List.mem_singleton.mp he with rfl
  simp [dijkstraInit, dictGet]

/-- Claim C5: when `goal` is unreachable from `start`, `dijkstra_search`
raises no error, never dequeues `goal` (the loop drains the frontier
without matching it), the returned `came_from` lacks a `goal` entry, and
`reconstruct_path` on that table returns the empty sequence. -/
theorem C5_unreachable_goal {V : Type} [LinearOrder V] (g : WGraph V)
    (start goal : V) (hU : ¬ Reaches g.neighbors start goal) :
    (∀ fuel, dijkstraLoop g goal fuel (dijkstraInit start) ≠ .keyError) ∧
    (∀ fuel cf csf tr,
      dijkstraLoop g goal fuel (dijkstraInit start) = .done (cf, csf, tr) →
      goal ∉ tr ∧ dictGet cf goal = none ∧
      ∀ fuel2, reconstruct_path cf start goal fuel2 = .done []) := by
  have hreInit : Realized g start (dijkstraInit start) :=
    (dijkstraInit_weakInv g start).realized
  have hpkInit : PoppedKeys (dijkstraInit (V := V) start) := by
    intro L hL
    cases hL
  constructor
  · intro fuel
    exact dijkstraLoop_ne_keyError fuel (dijkstraInit start) rfl hreInit
      (dijkstraInit_frontKeys start) hpkInit
  · intro fuel cf csf tr hrun
    obtain ⟨hreal, htr⟩ := dijkstraLoop_light fuel (dijkstraInit start) cf csf tr
      rfl hreInit (dijkstraInit_frontKeys start) hpkInit hrun
    have hcsf_goal : ¬ (dictGet csf goal).isSome := by
      intro hs
      obtain ⟨c, hc⟩ := Option.isSome_iff_exists.mp hs
      exact hU (reaches_iff_walk.mpr ⟨c, hreal goal c hc⟩)
    have hkeys := dijkstraLoop_keysEq fuel (dijkstraInit start) cf csf tr rfl hrun
    have hcf_goal : dictGet cf goal = none := by
      apply Option.not_isSome_iff_eq_none.mp
      intro hs
      apply hcsf_goal
      rw [dictGet_mem_keys, ← hkeys]
      exact dictGet_mem_keys.mp hs
    refine ⟨?_, hcf_goal, ?_⟩
    · intro hg
      exact hcsf_goal (htr goal hg)
    · intro fuel2
      unfold reconstruct_path
      rw [hcf_goal]
      simp

/-- Witness for C5: location 5 is unreachable in the two-node example;
the concrete run drains the frontier and `came_from` lacks a key 5. -/
theorem C5_witness :
    dictGet [((0 : ℕ), (none : Option ℕ)), (1, some 0)] 5 = none := by
  have hub : ∀ v, Reaches exampleGraphW.neighbors 0 v → v = 0 ∨ v = 1 := by
    intro v h
    induction h with
    | refl => exact Or.inl rfl
    | @tail u v hu hv ih =>
        rcases ih with rfl | rfl
        · simp only [exampleGraphW, if_pos rfl] at hv
          rcases List.mem_singleton.mp hv with rfl
          exact Or.inr rfl
        · simp [exampleGraphW] at hv
  have h5 : ¬ Reaches exampleGraphW.neighbors 0 5 := by
    intro h
    rcases hub 5 h with h5 | h5 <;> cases h5
  exact ((C5_unreachable_goal exampleGraphW 0 5 h5).2 3
    [(0, none), (1, some 0)] [(0, 0), (1, 1)] [0, 1]
    (by norm_num [dijkstraLoop, dijkstraInit, popMin, expandGo, relax, relaxWrite,
      dictGet, dictPut, exampleGraphW])).2.1

/-! ## The backpointer tree at every point of the search (C4) -/

/-- One micro-step of `dijkstra_search`: removing a dequeued minimal
frontier entry, or one relaxation of a neighbor edge.  Every intermediate
state of the loop is reached from the initial state by these steps. -/
inductive DMicro {V : Type} [LinearOrder V] (g : WGraph V) :
    DState V → DState V → Prop
  | pop {s : DState V} {m : ℚ × V} {rest : List (ℚ × V)} :
      popMin s.frontier = some (m, rest) →
      DMicro g s { s with frontier := rest, popped := s.popped ++ [m.2] }
  | edge {s t : DState V} {current next : V} :
      next ∈ g.neighbors current → relax g current next s = some t →
      DMicro g s t

theorem dmicro_weakInv {V : Type} [LinearOrder V] {g : WGraph V} {start : V}
    (hnn : NonnegCosts g) {s t : DState V} (h : DMicro g s t)
    (hw : WeakInv g start s) : WeakInv g start t := by
  cases h with
  | pop hpop => exact ⟨hw.keys, hw.realized, hw.startE, hw.chain, hw.tree⟩
  | edge hedge hrel => exact relax_weakInv hnn hedge hrel hw

theorem leadsTo_exists_n {V : Type} [DecidableEq V] {cf : List (V × Option V)}
    {start v : V} (h : LeadsTo cf start v) : ∃ n, LeadsToN cf start v n := by
  induction h with
  | base => exact ⟨0, LeadsToN.base⟩
  | step hlook htail ih =>
      obtain ⟨n, hn⟩ := ih
      exact ⟨n + 1, LeadsToN.step hlook hn⟩

/-- A table whose keys all lead to `start`, with the `None` sentinel at
`start`, has no backpointer cycle. -/
theorem acyclic_of_tree {V : Type} [DecidableEq V] {cf : List (V × Option V)}
    {start : V} (hstart : dictGet cf start = some none)
    (htree : ∀ v, (dictGet cf v).isSome → LeadsTo cf start v) :
    ∀ v, ¬ Relation.TransGen (fun a b => dictGet cf a = some (some b)) v v := by
  have main : ∀ n v, LeadsToN cf start v n →
      Relation.TransGen (fun a b => dictGet cf a = some (some b)) v v → False := by
    intro n
    induction n using Nat.strong_induction_on with
    | _ n ih =>
        intro v hn hcyc
        obtain ⟨w, hvw, hwv⟩ := Relation.TransGen.head'_iff.mp hcyc
        cases hn with
        | base =>
            rw [hstart] at hvw
            injection hvw with h
            cases h
        | step hlook hn2 =>
            rename_i p m
            rw [hlook] at hvw
            injection hvw with h
            injection h with h
            subst h
            have hcyc2 : Relation.TransGen
                (fun a b => dictGet cf a = some (some b)) p p :=
              Relation.TransGen.tail' hwv hlook
            exact ih m (Nat.lt_succ_self m) p hn2 hcyc2
  intro v hcyc
  obtain ⟨w, hvw, _⟩ := Relation.TransGen.head'_iff.mp hcyc
  have hv : (dictGet cf v).isSome := by
    rw [hvw]
    rfl
  obtain ⟨n, hn⟩ := leadsTo_exists_n (htree v hv)
  exact main n v hn hcyc

/-- Claim C4: at every point during `dijkstra_search` on a graph with
non-negative edge costs, the `came_from` table is a tree rooted at
`start`: following backpointers from any key reaches `start`, and the
backpointer relation has no cycle. -/
theorem C4_came_from_tree {V : Type} [LinearOrder V] (g : WGraph V) (start : V)
    (hnn : NonnegCosts g) (s : DState V)
    (hs : Relation.ReflTransGen (DMicro g) (dijkstraInit start) s) :
    (∀ v, (dictGet s.came_from v).isSome → LeadsTo s.came_from start v) ∧
    ∀ v, ¬ Relation.TransGen
      (fun a b => dictGet s.came_from a = some (some b)) v v := by
  have hw : WeakInv g start s := by
    induction hs with
    | refl => exact dijkstraInit_weakInv g start
    | tail hprev hstep ih => exact dmicro_weakInv hnn hstep ih
  exact ⟨hw.tree, acyclic_of_tree hw.startE.1 hw.tree⟩

/-- Every full neighbor expansion is a sequence of micro-steps. -/
theorem expandGo_micro {V : Type} [LinearOrder V] {g : WGraph V} {current : V} :
    ∀ (pending : List V) (s t : DState V),
      (∀ y ∈ pending, y ∈ g.neighbors current) →
      expandGo g current pending s = some t →
      Relation.ReflTransGen (DMicro g) s t := by
  intro pending
  induction pending with
  | nil =>
      intro s t _ h
      simp only [expandGo, Option.some.injEq] at h
      subst h
      exact Relation.ReflTransGen.refl
  | cons next rest ih =>
      intro s t hpend h
      simp only [expandGo] at h
      rcases hr : relax g current next s with _ | u <;> rw [hr] at h
      · cases h
      · exact Relation.ReflTransGen.head
          (DMicro.edge (hpend next (List.mem_cons_self _ _)) hr)
          (ih u t (fun y hy => hpend y (List.mem_cons_of_mem _ hy)) h)

/-- Every successful Dijkstra run ends in a micro-reachable state carrying
the returned tables, so the claim about micro-reachable states covers the
actual runs. -/
theorem dijkstraLoop_micro {V : Type} [LinearOrder V] {g : WGraph V} {goal : V} :
    ∀ (fuel : Nat) (s : DState V) (cf : List (V × Option V)) (csf : List (V × ℚ))
      (tr : List V),
      dijkstraLoop g goal fuel s = .done (cf, csf, tr) →
      ∃ sf, Relation.ReflTransGen (DMicro g) s sf ∧
        sf.came_from = cf ∧ sf.cost_so_far = csf ∧ sf.popped = tr := by
  intro fuel
  induction fuel with
  | zero =>
      intro s cf csf tr h
      simp [dijkstraLoop] at h
  | succ n ih =>
      intro s cf csf tr hrun
      rw [dijkstraLoop] at hrun
      rcases hpop : popMin s.frontier with _ | ⟨⟨pr, cur⟩, rest⟩ <;> rw [hpop] at hrun
      · simp only [RunRes.done.injEq, Prod.mk.injEq] at hrun
        exact ⟨s, Relation.ReflTransGen.refl, hrun.1, hrun.2.1, hrun.2.2⟩
      · by_cases hg : cur = goal
        · subst hg
          simp only [eq_self_iff_true, if_true, RunRes.done.injEq, Prod.mk.injEq] at hrun
          exact ⟨{ s with frontier := rest, popped := s.popped ++ [cur] },
            Relation.ReflTransGen.single (DMicro.pop hpop),
            hrun.1, hrun.2.1, hrun.2.2⟩
        · simp only [if_neg hg] at hrun
          rcases hexp : expandGo g cur (g.neighbors cur)
              { s with frontier := rest, popped := s.popped ++ [cur] } with _ | t <;>
            rw [hexp] at hrun
          · cases hrun
          · obtain ⟨sf, hsf, e1, e2, e3⟩ := ih t cf csf tr hrun
            refine ⟨sf, ?_, e1, e2, e3⟩
            exact Relation.ReflTransGen.trans
              (Relation.ReflTransGen.head (DMicro.pop hpop)
                (expandGo_micro (g.neighbors cur) _ t (fun y hy => hy) hexp))
              hsf

/-- Witness for C4: the state after dequeuing the start entry of a
concrete two-node search. -/
theorem C4_witness :
    (∀ v : ℕ, (dictGet [(0, (none : Option ℕ))] v).isSome →
      LeadsTo [(0, (none : Option ℕ))] 0 v) ∧
    ∀ v : ℕ, ¬ Relation.TransGen
      (fun a b => dictGet [(0, (none : Option ℕ))] a = some (some b)) v v :=
  C4_came_from_tree exampleGraphW 0 (by intro a b _; norm_num [exampleGraphW])
    { dijkstraInit 0 with frontier := [], popped := [0] }
    (Relation.ReflTransGen.single
      (@DMicro.pop ℕ _ exampleGraphW (dijkstraInit 0) ((0 : ℚ), (0 : ℕ)) []
        (by norm_num [dijkstraInit, popMin])))

/-! ## Reconstructed path cost (C3) -/

theorem pchain_head {V : Type} [DecidableEq V] {cf : List (V × Option V)}
    {start c : V} {t : List V} (h : PChain cf start c t) :
    ∃ rest, t = c :: rest := by
  cases h with
  | base => exact ⟨[], rfl⟩
  | step hne hlook htail => exact ⟨_, rfl⟩

/-- A successful backpointer walk from `c` produces exactly the reversal
of the chain from `c` to `start`, appended to the accumulator. -/
theorem reconstructGo_pchain {V : Type} [DecidableEq V]
    {cf : List (V × Option V)} {start : V} :
    ∀ (fuel : Nat) (c : V) (acc p : List V),
      reconstructGo cf start fuel (some c) acc = .done p →
      ∃ t, PChain cf start c t ∧ p = (acc ++ t).reverse := by
  intro fuel
  induction fuel with
  | zero =>
      intro c acc p h
      simp [reconstructGo] at h
  | succ n ih =>
      intro c acc p h
      rw [reconstructGo] at h
      by_cases hc : c = start
      · rw [if_pos hc] at h
        simp only [RunRes.done.injEq] at h
        refine ⟨[c], ?_, h.symm⟩
        rw [hc]
        exact PChain.base
      · rw [if_neg hc] at h
        rcases hlook : dictGet cf c with _ | nxt <;> rw [hlook] at h
        · cases h
        · rcases nxt with _ | p2
          · cases n with
            | zero => simp [reconstructGo] at h
            | succ m => simp [reconstructGo] at h
          · obtain ⟨t, ht, hp⟩ := ih p2 (acc ++ [c]) p h
            refine ⟨c :: t, PChain.step hc hlook ht, ?_⟩
            rw [hp, List.append_assoc]
            rfl

/-- Telescoping the chain-cost invariant along a backpointer chain: the
chain's edge-cost total is bounded by the recorded cost of its head, and
the chain is a genuine walk of that total from `start`. -/
theorem pchain_cost {V : Type} [DecidableEq V] {g : WGraph V} {start : V}
    {cf : List (V × Option V)} {csf : List (V × ℚ)}
    (hch : ∀ v p, dictGet cf v = some (some p) →
      v ∈ g.neighbors p ∧ ∃ cv cp, dictGet csf v = some cv ∧
        dictGet csf p = some cp ∧ cp + g.cost p v ≤ cv)
    (hst : dictGet csf start = some 0) :
    ∀ {c : V} {t : List V}, PChain cf start c t →
      ∃ cc, dictGet csf c = some cc ∧ revCost g t ≤ cc ∧
        Walk g start c (revCost g t) := by
  intro c t h
  induction h with
  | base =>
      refine ⟨0, hst, ?_, ?_⟩
      · simp [revCost]
      · show Walk g start start (revCost g [start])
        simp only [revCost]
        exact Walk.nil
  | @step c p t2 hne hlook htail ih =>
      obtain ⟨cp, hcp, hlecp, hwkp⟩ := ih
      obtain ⟨hedge, cv, cp2, hcv, hcp2, hle⟩ := hch c p hlook
      rw [hcp] at hcp2
      injection hcp2 with h2
      subst h2
      obtain ⟨trest, htrest⟩ := pchain_head htail
      refine ⟨cv, hcv, ?_, ?_⟩
      · rw [htrest]
        show g.cost p c + revCost g (p :: trest) ≤ cv
        rw [← htrest]
        linarith [hlecp, hle]
      · rw [htrest]
        show Walk g start c (g.cost p c + revCost g (p :: trest))
        rw [← htrest]
        rw [add_comm]
        exact hwkp.snoc hedge

theorem listCost_append_singleton {V : Type} (g : WGraph V) :
    ∀ (l : List V) (a b : V), l.getLast? = some a →
      listCost g (l ++ [b]) = listCost g l + g.cost a b := by
  intro l
  induction l with
  | nil =>
      intro a b h
      cases h
  | cons x rest ih =>
      intro a b h
      cases rest with
      | nil =>
          simp only [List.getLast?_singleton, Option.some.injEq] at h
          subst h
          show g.cost x b + listCost g [b] = listCost g [x] + g.cost x b
          simp [listCost]
      | cons y rest2 =>
          rw [List.getLast?_cons_cons] at h
          show g.cost x y + listCost g ((y :: rest2) ++ [b]) =
            g.cost x y + listCost g (y :: rest2) + g.cost a b
          rw [ih a b h]
          ring

theorem listCost_reverse {V : Type} (g : WGraph V) :
    ∀ t : List V, listCost g t.reverse = revCost g t := by
  intro t
  induction t with
  | nil => simp [listCost, revCost]
  | cons a rest ih =>
      cases rest with
      | nil => simp [listCost, revCost]
      | cons b rest2 =>
          have h1 : (a :: b :: rest2).reverse = (b :: rest2).reverse ++ [a] := by
            simp
          rw [h1, listCost_append_singleton g ((b :: rest2).reverse) b a
            (by rw [List.getLast?_reverse]; rfl)]
          rw [ih]
          show revCost g (b :: rest2) + g.cost b a =
            g.cost b a + revCost g (b :: rest2)
          ring

/-- Claim C3: for a graph with non-negative edge costs and a goal
reachable from `start`, the path returned by `reconstruct_path` on the
`came_from` table of a successful `dijkstra_search` run has total edge
cost (summed via `graph.cost` over consecutive pairs) equal to
`cost_so_far[goal]`. -/
theorem C3_path_cost {V : Type} [LinearOrder V] (g : WGraph V) (start goal : V)
    (hnn : NonnegCosts g) (fuel : Nat) (cf : List (V × Option V))
    (csf : List (V × ℚ)) (tr : List V)
    (hrun : dijkstraLoop g goal fuel (dijkstraInit start) = .done (cf, csf, tr))
    (hreach : Reaches g.neighbors start goal) (fuel2 : Nat) (p : List V)
    (hrec : reconstruct_path cf start goal fuel2 = .done p) :
    ∃ c, dictGet csf goal = some c ∧ listCost g p = c := by
  obtain ⟨sf, e1, e2, e3, hwf, hpf, hdisj⟩ := dijkstraLoop_inv hnn fuel
    (dijkstraInit start) cf csf tr (dijkstraInit_weakInv g start)
    (dijkstraInit_frontLe start) (dijkstraInit_relaxed g start)
    (dijkstraInit_poppedInv g start) hrun
  have hgoal : ∃ c, dictGet csf goal = some c ∧
      ∀ c2, Walk g start goal c2 → c ≤ c2 := by
    rcases hdisj with hg | ⟨hfe, hrx⟩
    · obtain ⟨c, hc, hopt⟩ := hpf goal (by rw [e3]; exact hg)
      rw [e2] at hc
      exact ⟨c, hc, hopt⟩
    · obtain ⟨c0, hwk0⟩ := reaches_iff_walk.mp hreach
      obtain ⟨cv, hcv, _⟩ := drained_bound hnn hwf.startE hrx hfe goal c0 hwk0
      have hopt : ∀ c2, Walk g start goal c2 → cv ≤ c2 := by
        intro c2 hw2
        obtain ⟨cv2, hcv2, hle2⟩ := drained_bound hnn hwf.startE hrx hfe goal c2 hw2
        rw [hcv] at hcv2
        injection hcv2 with h
        subst h
        exact hle2
      rw [e2] at hcv
      exact ⟨cv, hcv, hopt⟩
  obtain ⟨c, hc, hopt⟩ := hgoal
  refine ⟨c, hc, ?_⟩
  unfold reconstruct_path at hrec
  have hkeq : cf.map Prod.fst = csf.map Prod.fst := by
    rw [← e1, ← e2]
    exact hwf.keys
  have hcfgoal : (dictGet cf goal).isSome := by
    rw [dictGet_mem_keys, hkeq, ← dictGet_mem_keys, hc]
    rfl
  rw [if_pos hcfgoal] at hrec
  obtain ⟨t, ht, hp⟩ := reconstructGo_pchain fuel2 goal [] p hrec
  have hch : ∀ v p2, dictGet cf v = some (some p2) → v ∈ g.neighbors p2 ∧
      ∃ cv cp, dictGet csf v = some cv ∧ dictGet csf p2 = some cp ∧
        cp + g.cost p2 v ≤ cv := by
    intro v p2 hv
    have hres := hwf.chain v p2 (by rw [e1]; exact hv)
    rw [e2] at hres
    exact hres
  have hst2 : dictGet csf start = some 0 := by
    rw [← e2]
    exact hwf.startE.2
  obtain ⟨cc, hcc, hlecc, hwkc⟩ := pchain_cost hch hst2 ht
  rw [hc] at hcc
  injection hcc with h
  subst h
  rw [hp]
  show listCost g (([] ++ t).reverse) = c
  rw [List.nil_append, listCost_reverse]
  exact le_antisymm hlecc (hopt _ hwkc)

/-- Witness for C3: a concrete run whose reconstructed path [0, 1] has
total cost equal to the recorded cost of the goal. -/
theorem C3_witness : ∃ c, dictGet [((0 : ℕ), (0 : ℚ)), (1, 1)] 1 = some c ∧
    listCost exampleGraphW [0, 1] = c :=
  C3_path_cost exampleGraphW 0 1 (by intro a b _; norm_num [exampleGraphW]) 3
    [(0, none), (1, some 0)] [(0, 0), (1, 1)] [0, 1]
    (by norm_num [dijkstraLoop, dijkstraInit, popMin, expandGo, relax, relaxWrite,
      dictGet, dictPut, exampleGraphW])
    (Reaches.tail Reaches.refl (by norm_num [exampleGraphW])) 2 [0, 1]
    (by norm_num [reconstruct_path, reconstructGo, dictGet])

/-! ## BFS termination on finite location spaces -/

/-- Loop measure for BFS: unreached locations count double, frontier
entries once; every iteration strictly decreases it. -/
def bfsMeasure {V : Type} [DecidableEq V] [Fintype V] (s : BfsState V) : Nat :=
  2 * (Fintype.card V - s.reached.toFinset.card) + s.frontier.length

theorem bfsVisit_measure {V : Type} [DecidableEq V] [Fintype V] :
    ∀ (ns : List V) (s : BfsState V),
      bfsMeasure (bfsVisit ns s) ≤ bfsMeasure s := by
  intro ns
  induction ns with
  | nil => intro s; exact le_refl _
  | cons next rest ih =>
      intro s
      by_cases hmem : next ∈ s.reached
      · rw [show bfsVisit (next :: rest) s = bfsVisit rest s by
          simp [bfsVisit, hmem]]
        exact ih s
      · rw [show bfsVisit (next :: rest) s = bfsVisit rest
            ⟨s.frontier ++ [next], s.reached ++ [next], s.enq ++ [next]⟩ by
          simp [bfsVisit, hmem]]
        refine le_trans (ih _) ?_
        unfold bfsMeasure
        have hcard : (s.reached ++ [next]).toFinset.card =
            s.reached.toFinset.card + 1 := by
          rw [show (s.reached ++ [next]).toFinset =
              insert next s.reached.toFinset by
            simp [List.toFinset_append]
            exact Finset.union_comm _ _]
          rw [Finset.card_insert_of_not_mem (by
            rw [List.mem_toFinset]
            exact hmem)]
        have hle : (s.reached ++ [next]).toFinset.card ≤ Fintype.card V :=
          Finset.card_le_univ _
        simp only [hcard, List.length_append, List.length_singleton]
        omega

theorem bfsLoop_terminates {V : Type} [DecidableEq V] [Fintype V]
    (g : GraphB V) :
    ∀ (fuel : Nat) (s : BfsState V), bfsMeasure s < fuel →
      ∃ out, bfsLoop g fuel s = .done out := by
  intro fuel
  induction fuel with
  | zero =>
      intro s h
      cases h
  | succ n ih =>
      intro s h
      rcases hfr : s.frontier with _ | ⟨current, rest⟩
      · exact ⟨(s.reached, s.enq), by rw [bfsLoop, hfr]⟩
      · have hstep : bfsLoop g (n + 1) s =
            bfsLoop g n (bfsVisit (g.neighbors current) ⟨rest, s.reached, s.enq⟩) := by
          rw [bfsLoop, hfr]
        have hm0 : bfsMeasure (⟨rest, s.reached, s.enq⟩ : BfsState V) + 1 =
            bfsMeasure s := by
          unfold bfsMeasure
          rw [hfr]
          simp [List.length_cons]
          omega
        have hm : bfsMeasure (bfsVisit (g.neighbors current)
            ⟨rest, s.reached, s.enq⟩) < n := by
          have := bfsVisit_measure (g.neighbors current) ⟨rest, s.reached, s.enq⟩
          omega
        obtain ⟨out, hout⟩ := ih _ hm
        exact ⟨out, by rw [hstep, hout]⟩

/-- On a finite location space, `breadth_first_search` always terminates:
some fuel bound makes the loop drain the frontier and return. -/
theorem bfs_terminates {V : Type} [DecidableEq V] [Fintype V] (g : GraphB V)
    (start : V) :
    ∃ fuel reached enq,
      breadth_first_search g start fuel = .done (reached, enq) := by
  obtain ⟨out, hout⟩ := bfsLoop_terminates g (bfsMeasure (bfsInit start) + 1)
    (bfsInit start) (Nat.lt_succ_self _)
  exact ⟨bfsMeasure (bfsInit start) + 1, out.1, out.2, by
    unfold breadth_first_search
    rw [hout]⟩

/-! ## Dijkstra termination on finite location spaces -/

/-- Every already-dequeued location stays fully relaxed: all its
out-edges satisfy the triangle inequality against the cost table. -/
def PoppedRelaxed {V : Type} [DecidableEq V] (g : WGraph V) (s : DState V) : Prop :=
  ∀ u ∈ s.popped, ∃ cu, dictGet s.cost_so_far u = some cu ∧ RelaxedAt g s u cu

/-- A relaxation never changes the recorded cost of a dequeued location:
its cost is optimal and updates require a strict improvement. -/
theorem relax_csf_frozen {V : Type} [DecidableEq V] {g : WGraph V}
    {start current next : V} {s t : DState V}
    (hedge : next ∈ g.neighbors current) (hrel : relax g current next s = some t)
    (hre : Realized g start s) (hpi : PoppedInv g start s) :
    ∀ L ∈ s.popped, dictGet t.cost_so_far L = dictGet s.cost_so_far L := by
  rcases relax_cases hrel with ⟨ccur, hcur, hcase⟩
  rcases hcase with ⟨rfl, _⟩ | ⟨rfl, hguard⟩
  · intro L _
    rfl
  · intro L hL
    by_cases hLn : L = next
    · subst hLn
      obtain ⟨c, hc, hopt⟩ := hpi L hL
      exact absurd (hguard c hc)
        (not_lt.mpr (hopt _ ((hre current ccur hcur).snoc hedge)))
    · show dictGet (dictPut s.cost_so_far next (ccur + g.cost current next)) L = _
      rw [dictGet_dictPut_ne _ _ hLn]

theorem relax_poppedRelaxedExc {V : Type} [DecidableEq V] {g : WGraph V}
    {start current next : V} {s t : DState V}
    (hedge : next ∈ g.neighbors current) (hrel : relax g current next s = some t)
    (hre : Realized g start s) (hpi : PoppedInv g start s)
    (hpr : ∀ u ∈ s.popped, u = current ∨
      ∃ cu, dictGet s.cost_so_far u = some cu ∧ RelaxedAt g s u cu) :
    ∀ u ∈ t.popped, u = current ∨
      ∃ cu, dictGet t.cost_so_far u = some cu ∧ RelaxedAt g t u cu := by
  intro u hu
  rw [relax_popped hrel] at hu
  rcases hpr u hu with hc | ⟨cu, hcu, hrx⟩
  · exact Or.inl hc
  · refine Or.inr ⟨cu, ?_, ?_⟩
    · rw [relax_csf_frozen hedge hrel hre hpi u hu]
      exact hcu
    · intro y hy
      obtain ⟨cy, hcy, hle⟩ := hrx y hy
      obtain ⟨cy2, hcy2, hle2⟩ := relax_csf_le hrel y cy hcy
      exact ⟨cy2, hcy2, le_trans hle2 hle⟩

theorem expandGo_poppedRelaxedExc {V : Type} [DecidableEq V] {g : WGraph V}
    {start current : V} :
    ∀ (pending : List V) (s t : DState V),
      (∀ y ∈ pending, y ∈ g.neighbors current) →
      expandGo g current pending s = some t →
      Realized g start s → PoppedInv g start s →
      (∀ u ∈ s.popped, u = current ∨
        ∃ cu, dictGet s.cost_so_far u = some cu ∧ RelaxedAt g s u cu) →
      ∀ u ∈ t.popped, u = current ∨
        ∃ cu, dictGet t.cost_so_far u = some cu ∧ RelaxedAt g t u cu := by
  intro pending
  induction pending with
  | nil =>
      intro s t _ hrun _ _ hpr
      simp only [expandGo, Option.some.injEq] at hrun
      subst hrun
      exact hpr
  | cons next rest ih =>
      intro s t hpend hrun hre hpi hpr
      simp only [expandGo] at hrun
      rcases hr : relax g current next s with _ | u0 <;> rw [hr] at hrun
      · cases hrun
      · have hedge : next ∈ g.neighbors current := hpend next (List.mem_cons_self _ _)
        exact ih u0 t (fun y hy => hpend y (List.mem_cons_of_mem _ hy)) hrun
          (relax_realized hedge hr hre) (relax_poppedInv hedge hr hre hpi)
          (relax_poppedRelaxedExc hedge hr hre hpi hpr)

/-- A relaxation can lengthen the frontier by at most one entry. -/
theorem relax_frontier_len {V : Type} [DecidableEq V] {g : WGraph V}
    {current next : V} {s t : DState V} (hrel : relax g current next s = some t) :
    t.frontier.length ≤ s.frontier.length + 1 := by
  rcases relax_cases hrel with ⟨ccur, hcur, hcase⟩
  rcases hcase with ⟨rfl, _⟩ | ⟨rfl, _⟩
  · exact Nat.le_succ _
  · show (s.frontier ++ [(ccur + g.cost current next, next)]).length ≤ _
    simp

theorem expandGo_frontier_len {V : Type} [DecidableEq V] {g : WGraph V}
    {current : V} :
    ∀ (pending : List V) (s t : DState V),
      expandGo g current pending s = some t →
      t.frontier.length ≤ s.frontier.length + pending.length := by
  intro pending
  induction pending with
  | nil =>
      intro s t hrun
      simp only [expandGo, Option.some.injEq] at hrun
      subst hrun
      simp
  | cons next rest ih =>
      intro s t hrun
      simp only [expandGo] at hrun
      rcases hr : relax g current next s with _ | u <;> rw [hr] at hrun
      · cases hrun
      · have h1 := ih u t hrun
        have h2 := relax_frontier_len hr
        simp only [List.length_cons]
        omega

/-- Expanding an already fully relaxed location performs no writes. -/
theorem expandGo_noop {V : Type} [DecidableEq V] {g : WGraph V} {current : V}
    {cu : ℚ} :
    ∀ (pending : List V) (s : DState V),
      dictGet s.cost_so_far current = some cu →
      (∀ y ∈ pending, y ∈ g.neighbors current) →
      RelaxedAt g s current cu →
      expandGo g current pending s = some s := by
  intro pending
  induction pending with
  | nil =>
      intro s _ _ _
      rfl
  | cons next rest ih =>
      intro s hcu hpend hrx
      have hedge : next ∈ g.neighbors current := hpend next (List.mem_cons_self _ _)
      obtain ⟨cy, hcy, hle⟩ := hrx next hedge
      have hrel : relax g current next s = some s := by
        unfold relax
        rw [hcu, hcy]
        simp only [if_neg (not_lt.mpr hle)]
      simp only [expandGo, hrel]
      exact ih s hcu (fun y hy => hpend y (List.mem_cons_of_mem _ hy)) hrx

/-- Loop measure for Dijkstra: frontier entries count once, and every
not-yet-dequeued location contributes its out-degree plus one.  Fresh
dequeues pay for all pushes their expansion can make; stale dequeues make
no writes at all. -/
def dMeasure {V : Type} [DecidableEq V] [Fintype V] (g : WGraph V)
    (s : DState V) : Nat :=
  s.frontier.length +
    (Finset.univ \ s.popped.toFinset).sum (fun u => (g.neighbors u).length + 1)

/-- On a finite location space with non-negative edge costs, the Dijkstra
loop terminates: any fuel above the measure makes it return.  Fresh
dequeues pay for their pushes out of the measure; stale dequeues of
already-relaxed locations write nothing and only shrink the frontier. -/
theorem dijkstraLoop_terminates {V : Type} [LinearOrder V] [Fintype V]
    {g : WGraph V} {start goal : V} (hnn : NonnegCosts g) :
    ∀ (fuel : Nat) (s : DState V),
      dMeasure g s < fuel →
      WeakInv g start s → FrontLe s → RelaxedInv g s → PoppedInv g start s →
      PoppedRelaxed g s →
      ∃ out, dijkstraLoop g goal fuel s = .done out := by
  intro fuel
  induction fuel with
  | zero =>
      intro s hm _ _ _ _ _
      exact absurd hm (Nat.not_lt_zero _)
  | succ n ih =>
      intro s hm hw hfl hrx hpi hpr
      rcases hpop : popMin s.frontier with _ | ⟨⟨pr, cur⟩, rest⟩
      · refine ⟨(s.came_from, s.cost_so_far, s.popped), ?_⟩
        rw [dijkstraLoop, hpop]
      · by_cases hg : cur = goal
        · subst hg
          refine ⟨(s.came_from, s.cost_so_far, s.popped ++ [cur]), ?_⟩
          rw [dijkstraLoop, hpop]
          simp
        · set s0 : DState V := { s with frontier := rest, popped := s.popped ++ [cur] }
            with hs0
          obtain ⟨ccur, hcur, hcle⟩ := hfl (pr, cur)
            ((popMin_perm hpop).mem_iff.mpr (List.mem_cons_self _ _))
          have hcurS : (dictGet s.cost_so_far cur).isSome := by
            rw [hcur]
            rfl
          have hlen : s.frontier.length = rest.length + 1 := by
            have hpl := (popMin_perm hpop).length_eq
            simp at hpl
            omega
          have hopt := popMin_optimal hnn hw.startE hrx hfl hpop
          have hw0 : WeakInv g start s0 :=
            ⟨hw.keys, hw.realized, hw.startE, hw.chain, hw.tree⟩
          have hfl0 : FrontLe s0 := fun e he =>
            hfl e ((popMin_perm hpop).mem_iff.mpr (List.mem_cons_of_mem _ he))
          have hpi0 : PoppedInv g start s0 := by
            intro L hL
            rcases List.mem_append.mp hL with hL | hL
            · exact hpi L hL
            · rcases List.mem_singleton.mp hL with rfl
              exact hopt
          by_cases hstale : cur ∈ s.popped
          · obtain ⟨cu, hcu, hrxc⟩ := hpr cur hstale
            have hnoop : expandGo g cur (g.neighbors cur) s0 = some s0 :=
              expandGo_noop (g.neighbors cur) s0 hcu (fun y hy => hy) hrxc
            have hrx0 : RelaxedInv g s0 := by
              intro v c hvc
              by_cases hvcur : v = cur
              · subst hvcur
                right
                have hvc2 : dictGet s.cost_so_far v = some c := hvc
                rw [hcu] at hvc2
                injection hvc2 with h
                subst h
                intro y hy
                exact hrxc y hy
              · rcases hrx v c hvc with hf | hr
                · have hmem := (popMin_perm hpop).mem_iff.mp hf
                  rcases List.mem_cons.mp hmem with heq | hmem2
                  · exact absurd (congrArg Prod.snd heq) hvcur
                  · exact Or.inl hmem2
                · exact Or.inr hr
            have hpr0 : PoppedRelaxed g s0 := by
              intro u hu
              rcases List.mem_append.mp hu with hu | hu
              · exact hpr u hu
              · rcases List.mem_singleton.mp hu with rfl
                exact ⟨cu, hcu, hrxc⟩
            have hm0 : dMeasure g s0 < n := by
              have htf : (s.popped ++ [cur]).toFinset = s.popped.toFinset := by
                simp [List.toFinset_append]
                exact hstale
              unfold dMeasure at hm ⊢
              rw [show s0.frontier = rest from rfl,
                show s0.popped = s.popped ++ [cur] from rfl, htf]
              omega
            obtain ⟨out, hout⟩ := ih s0 hm0 hw0 hfl0 hrx0 hpi0 hpr0
            refine ⟨out, ?_⟩
            rw [dijkstraLoop, hpop]
            simp only [if_neg hg, ← hs0, hnoop]
            exact hout
          · have hexc0 : ∀ v c, dictGet s0.cost_so_far v = some c →
                (c, v) ∈ s0.frontier ∨ RelaxedAt g s0 v c ∨ v = cur := by
              intro v c hvc
              rcases hrx v c hvc with hf | hr
              · have hmem := (popMin_perm hpop).mem_iff.mp hf
                rcases List.mem_cons.mp hmem with heq | hmem2
                · right; right
                  exact congrArg Prod.snd heq
                · left
                  exact hmem2
              · right; left
                exact hr
            rcases hexp : expandGo g cur (g.neighbors cur) s0 with _ | t
            · exact absurd hexp (expandGo_ne_none (g.neighbors cur) s0 hcurS)
            · have hgo := expandGo_inv hnn (g.neighbors cur) s0 t ccur
                (fun y hy => hy) hexp hw0 hfl0 hpi0 hcur hexc0
                (fun y hy hny => absurd hy hny)
              have hrx1 : RelaxedInv g t := by
                intro v c hvc
                rcases hgo.2.2.2.2.1 v c hvc with hf | hr | hvc2
                · exact Or.inl hf
                · exact Or.inr hr
                · subst hvc2
                  right
                  rw [hgo.2.2.2.1] at hvc
                  injection hvc with h
                  subst h
                  intro y hy
                  exact hgo.2.2.2.2.2.1 y hy
              have hprExc : ∀ u ∈ s0.popped, u = cur ∨
                  ∃ cu, dictGet s0.cost_so_far u = some cu ∧ RelaxedAt g s0 u cu := by
                intro u hu
                rcases List.mem_append.mp hu with hu | hu
                · obtain ⟨cu, hcu, hrxu⟩ := hpr u hu
                  exact Or.inr ⟨cu, hcu, hrxu⟩
                · rcases List.mem_singleton.mp hu with rfl
                  exact Or.inl rfl
              have hpr1 : PoppedRelaxed g t := by
                intro u hu
                rcases expandGo_poppedRelaxedExc (g.neighbors cur) s0 t
                    (fun y hy => hy) hexp hw0.realized hpi0 hprExc u hu with hc | h
                · subst hc
                  exact ⟨ccur, hgo.2.2.2.1, fun y hy => hgo.2.2.2.2.2.1 y hy⟩
                · exact h
              have hm1 : dMeasure g t < n := by
                have htlen := expandGo_frontier_len (g.neighbors cur) s0 t hexp
                rw [show s0.frontier = rest from rfl] at htlen
                have htpop : t.popped = s.popped ++ [cur] := hgo.2.2.2.2.2.2
                have hcurNot : cur ∉ s.popped.toFinset :=
                  fun h => hstale (List.mem_toFinset.mp h)
                have htf : (s.popped ++ [cur]).toFinset =
                    insert cur s.popped.toFinset := by
                  ext a
                  simp [List.toFinset_append, or_comm]
                have hsdiff : Finset.univ \ insert cur s.popped.toFinset =
                    (Finset.univ \ s.popped.toFinset).erase cur :=
                  Finset.sdiff_insert _ _ _
                have hmemCur : cur ∈ Finset.univ \ s.popped.toFinset := by
                  rw [Finset.mem_sdiff]
                  exact ⟨Finset.mem_univ cur, hcurNot⟩
                have hsum : ((g.neighbors cur).length + 1) +
                    ((Finset.univ \ s.popped.toFinset).erase cur).sum
                      (fun u => (g.neighbors u).length + 1) =
                    (Finset.univ \ s.popped.toFinset).sum
                      (fun u => (g.neighbors u).length + 1) :=
                  Finset.add_sum_erase _ (fun u => (g.neighbors u).length + 1) hmemCur
                unfold dMeasure at hm ⊢
                rw [htpop, htf, hsdiff]
                omega
              obtain ⟨out, hout⟩ := ih t hm1 hgo.1 hgo.2.1 hrx1 hgo.2.2.1 hpr1
              refine ⟨out, ?_⟩
              rw [dijkstraLoop, hpop]
              simp only [if_neg hg, ← hs0, hexp]
              exact hout

/-- On a finite location space with non-negative edge costs,
`dijkstra_search` terminates: some fuel makes it return its tables. -/
theorem dijkstra_terminates {V : Type} [LinearOrder V] [Fintype V]
    (g : WGraph V) (start goal : V) (hnn : NonnegCosts g) :
    ∃ fuel cf csf, dijkstra_search g start goal fuel = .done (cf, csf) := by
  have hprInit : PoppedRelaxed g (dijkstraInit (V := V) start) := by
    intro u hu
    cases hu
  obtain ⟨out, hout⟩ := dijkstraLoop_terminates hnn
    (dMeasure g (dijkstraInit start) + 1) (dijkstraInit start)
    (Nat.lt_succ_self _) (dijkstraInit_weakInv g start)
    (dijkstraInit_frontLe start) (dijkstraInit_relaxed g start)
    (dijkstraInit_poppedInv g start) hprInit
  refine ⟨dMeasure g (dijkstraInit start) + 1, out.1, out.2.1, ?_⟩
  unfold dijkstra_search
  rw [hout]
